import Mathlib

/-!
# Verification of the issue dependency-graph subsystem of `agentx`

This file gives a shallow embedding, in Lean 4, of the dependency-graph
subsystem of the `agentx` issue tracker, and proves (or refutes) the
properties claimed by its specification.

Embedded source functions (all paths relative to the repository root):

* `src/issue.rs`       — `IssueMetadata` (the `depends_on` / `blocks` fields;
  every other field is payload the graph core never reads).
* `src/storage.rs`     — `load_issue` / `update_issue_metadata`, modelled over
  an association list keyed by issue number.  Rust's `find_issue_file`
  returns the first file matching the number, so lookup and update both act
  on the first matching entry.
* `src/commands.rs`    — `depend` (CLI entry point, lines 1746-1867),
  `would_create_cycle` (1986-2014), `critical_path`/`find_chain`
  (2016-2134), `get_dependency_closure` (2179-2211),
  `compute_graph_layers` (2312-2356), `find_cycles` (2487-2570).
* `src/mcp.rs`         — the `issues_depend` MCP tool (lines 1366-1478, same
  mutation as the CLI but with no cycle guard), and the inlined copies of the
  closure / critical-path algorithms (identical to the `commands.rs` ones).

Loops of the Rust source are modelled either by structural recursion or by a
fuel parameter (`Option`-valued: `none` models non-termination or a `panic`),
with explicit lemmas showing the canonical fuel always suffices.  Machine
integers (`u32`) are modelled as `Nat`: the code never performs arithmetic on
issue ids, so overflow is irrelevant.
-/

/-- The dependency-relevant part of `IssueMetadata` (src/issue.rs:151-153).
`depends_on` are the forward edges ("prerequisites of this issue"),
`blocks` the denormalized reverse edges ("issues that depend on this one"). -/
structure IssueMetadata where
  depends_on : List Nat
  blocks : List Nat
deriving DecidableEq, Repr

/-- The issue store: the list of issues, keyed by issue number, in directory
order.  Models both the on-disk repository of `src/storage.rs` and the
`Vec<IssueWithId>` returned by `list_open_issues`; `HashMap` lookups by id in
the Rust code are modelled by first-match lookup, which agrees with the map
whenever ids are distinct (one file per issue number). -/
abbrev Store : Type := List (Nat × IssueMetadata)

/-- `Storage::load_issue` (src/storage.rs:136-142): look the issue up by
number; `none` models the `Err` of a missing issue file. -/
def load_issue (s : Store) (n : Nat) : Option IssueMetadata :=
  (s.find? (fun p => p.1 = n)).map (fun p => p.2)

/-- `Storage::update_issue_metadata` (src/storage.rs:190-204): read the
issue's record, apply the mutator, write it back.  `none` models the error
when no issue file with that number exists. -/
def update_issue_metadata (s : Store) (n : Nat) (f : IssueMetadata → IssueMetadata) :
    Option Store :=
  match s with
  | [] => none
  | (k, m) :: rest =>
    if k = n then some ((k, f m) :: rest)
    else (update_issue_metadata rest n f).map (fun r => (k, m) :: r)

/-- The dependency edge relation of a store: `x` depends directly on `y`.
Only issues whose record can be loaded contribute outgoing edges, exactly as
in `would_create_cycle` (src/commands.rs:2004: `if let Ok(issue) = ...`). -/
def depEdge (s : Store) (x y : Nat) : Prop :=
  ∃ m, load_issue s x = some m ∧ y ∈ m.depends_on

/-- All issue ids mentioned by the store: the keys together with every id
appearing in some `depends_on` list.  Used only to bound search fuel. -/
def storeIds (s : Store) : Finset Nat :=
  (s.map (fun p => p.1)).toFinset ∪ ((s.map (fun p => p.2.depends_on)).flatten).toFinset

/-- The issue numbers present in the store. -/
def storeKeys (s : Store) : Finset Nat := (s.map (fun p => p.1)).toFinset

/-- Total length of all `depends_on` lists; a crude bound on out-degrees. -/
def totalDeps (s : Store) : Nat :=
  ((s.map (fun p => p.2.depends_on.length)).sum)

-- ### Basic store lemmas

theorem load_issue_mem {s : Store} {n : Nat} {m : IssueMetadata}
    (h : load_issue s n = some m) : (n, m) ∈ s := by
  unfold load_issue at h
  rcases hf : s.find? (fun p => p.1 = n) with _ | p
  · rw [hf] at h; simp at h
  · rw [hf] at h
    simp only [Option.map_some', Option.some.injEq] at h
    have hmem := List.mem_of_find?_eq_some hf
    have hp := List.find?_some hf
    simp only [decide_eq_true_eq] at hp
    cases p with
    | mk a b => cases hp; cases h; exact hmem

theorem mem_storeIds_of_key {s : Store} {n : Nat} {m : IssueMetadata}
    (h : (n, m) ∈ s) : n ∈ storeIds s := by
  unfold storeIds
  apply Finset.mem_union_left
  simp only [List.mem_toFinset, List.mem_map]
  exact ⟨(n, m), h, rfl⟩

theorem mem_storeIds_of_dep {s : Store} {n d : Nat} {m : IssueMetadata}
    (h : (n, m) ∈ s) (hd : d ∈ m.depends_on) : d ∈ storeIds s := by
  unfold storeIds
  apply Finset.mem_union_right
  simp only [List.mem_toFinset, List.mem_flatten, List.mem_map]
  exact ⟨m.depends_on, ⟨(n, m), h, rfl⟩, hd⟩

theorem depEdge_target_mem {s : Store} {x y : Nat} (h : depEdge s x y) :
    y ∈ storeIds s := by
  obtain ⟨m, hm, hy⟩ := h
  exact mem_storeIds_of_dep (load_issue_mem hm) hy

-- ### CycleGuard: `would_create_cycle` (src/commands.rs:1986-2014)

/-- One fuel-metered run of the iterative reachability search of
`would_create_cycle`: pop `current` from the stack; answer `true` if it is
the subject (`bug`); skip it if already visited; otherwise mark it visited
and push every not-yet-visited dependency of its record (an issue that fails
to load contributes no edges).  The Rust `Vec` stack pushes at the end and
pops from the end, hence the `reverse` when prepending to the list head.
`none` models running out of fuel (the Rust loop has none; the lemma
`wccF_isSome_of_fuel` shows the canonical fuel always suffices). -/
def wccF (s : Store) (bug : Nat) : Nat → Finset Nat → List Nat → Option Bool
  | 0, _, _ => none
  | _ + 1, _, [] => some false
  | fuel + 1, visited, current :: rest =>
    if current = bug then some true
    else if current ∈ visited then wccF s bug fuel visited rest
    else
      let visited' := insert current visited
      let deps := match load_issue s current with
        | some m => m.depends_on
        | none => []
      wccF s bug fuel visited' ((deps.filter (fun d => d ∉ visited')).reverse ++ rest)

/-- Canonical fuel for `wccF`: enough for the whole search (see
`wccF_isSome_of_fuel`). -/
def wccFuel (s : Store) : Nat :=
  ((storeIds s).card + 1) * (totalDeps s + 1) + 2

/-- `Commands::would_create_cycle(bug_num, dep_num)` (src/commands.rs:1986):
true iff `dep_num` can already reach `bug_num` along `depends_on` edges, so
that adding `bug_num → dep_num` would close a cycle. -/
def would_create_cycle (s : Store) (bug dep : Nat) : Option Bool :=
  wccF s bug (wccFuel s) ∅ [dep]

-- ### EdgeMutator: the `depend` operation

/-- Error outcomes of a `depend` request.  `notFound` models the
`load_issue` existence check failing on an id to add; `cycleDetected` the
`anyhow::bail!` of the cycle guard (src/commands.rs:1773); `writeFailed` an
`update_issue_metadata` error after mutation has begun (the
`PartialWriteFailure` of the specification). -/
inductive DependError where
  | notFound (id : Nat)
  | cycleDetected (subject dep : Nat)
  | writeFailed (id : Nat)
deriving DecidableEq, Repr

/-- The subject-record mutator passed to `update_issue_metadata`
(src/commands.rs:1783-1796 = src/mcp.rs:1418-1426): push each id to add
unless already present, drop every id to remove, sort ascending. -/
def applyDependMeta (add_nums remove_nums : List Nat) (m : IssueMetadata) :
    IssueMetadata :=
  { m with depends_on :=
      ((add_nums.foldl (fun d a => if a ∈ d then d else d ++ [a]) m.depends_on).filter
        (fun d => d ∉ remove_nums)).insertionSort (· ≤ ·) }

/-- Reverse-edge mutator for an added dependency (src/commands.rs:1800-1805):
push the subject into `blocks` unless present, then sort. -/
def addBlocksMeta (subject : Nat) (m : IssueMetadata) : IssueMetadata :=
  { m with blocks :=
      (if subject ∈ m.blocks then m.blocks else m.blocks ++ [subject]).insertionSort (· ≤ ·) }

/-- Reverse-edge mutator for a removed dependency (src/commands.rs:1809-1811):
retain every `blocks` entry other than the subject. -/
def removeBlocksMeta (subject : Nat) (m : IssueMetadata) : IssueMetadata :=
  { m with blocks := m.blocks.filter (fun b => b ≠ subject) }

/-- The `for dep_ref in &add_deps { ... load_issue(dep_num)? ... }` existence
check both entry points run on the ids to add (src/commands.rs:1757-1762,
src/mcp.rs:1386-1401). -/
def checkAddsExist (s : Store) : List Nat → Except DependError Unit
  | [] => .ok ()
  | a :: rest =>
    match load_issue s a with
    | some _ => checkAddsExist s rest
    | none => .error (.notFound a)

/-- The CLI cycle-guard loop (src/commands.rs:1770-1780): every candidate is
checked before any mutation; the first failing candidate aborts the request.
A `none` from the guard (fuel exhaustion, provably impossible) is surfaced
as a write failure so that it cannot be mistaken for a pass. -/
def checkCycles (s : Store) (subject : Nat) : List Nat → Except DependError Unit
  | [] => .ok ()
  | a :: rest =>
    match would_create_cycle s subject a with
    | some true => .error (.cycleDetected subject a)
    | some false => checkCycles s subject rest
    | none => .error (.writeFailed subject)

/-- The reverse-edge update loop over added ids (src/commands.rs:1799-1806 =
src/mcp.rs:1433-1447). -/
def addBlocksAll (s : Store) (subject : Nat) : List Nat → Except DependError Store
  | [] => .ok s
  | d :: rest =>
    match update_issue_metadata s d (addBlocksMeta subject) with
    | some s' => addBlocksAll s' subject rest
    | none => .error (.writeFailed d)

/-- The reverse-edge update loop over removed ids (src/commands.rs:1808-1812 =
src/mcp.rs:1449-1460). -/
def removeBlocksAll (s : Store) (subject : Nat) : List Nat → Except DependError Store
  | [] => .ok s
  | d :: rest =>
    match update_issue_metadata s d (removeBlocksMeta subject) with
    | some s' => removeBlocksAll s' subject rest
    | none => .error (.writeFailed d)

/-- The shared mutation phase of both `depend` entry points
(src/commands.rs:1782-1812 = src/mcp.rs:1416-1460): update the subject's
`depends_on`, then each added id's `blocks`, then each removed id's
`blocks`.  Up to `1 + |add| + |remove|` separate records, no transaction. -/
def dependMutate (s : Store) (subject : Nat) (add_nums remove_nums : List Nat) :
    Except DependError Store :=
  match update_issue_metadata s subject (applyDependMeta add_nums remove_nums) with
  | none => .error (.writeFailed subject)
  | some s1 =>
    match addBlocksAll s1 subject add_nums with
    | .error e => .error e
    | .ok s2 => removeBlocksAll s2 subject remove_nums

/-- `Commands::depend` (src/commands.rs:1746-1867), the CLI entry point:
existence check on the ids to add, cycle guard on every candidate edge, then
the mutation.  Issue references are modelled as already-resolved numbers
(`resolve_bug_ref` on a numeric ref is the identity). -/
def depend (s : Store) (subject : Nat) (add_nums remove_nums : List Nat) :
    Except DependError Store :=
  match checkAddsExist s add_nums with
  | .error e => .error e
  | .ok _ =>
    match checkCycles s subject add_nums with
    | .error e => .error e
    | .ok _ => dependMutate s subject add_nums remove_nums

/-- The `issues_depend` MCP tool (src/mcp.rs:1366-1478): existence check on
the ids to add, then the same mutation as the CLI — with no cycle guard and
no self-dependency check. -/
def mcpDepend (s : Store) (subject : Nat) (add_nums remove_nums : List Nat) :
    Except DependError Store :=
  match checkAddsExist s add_nums with
  | .error e => .error e
  | .ok _ => dependMutate s subject add_nums remove_nums

-- ### ClosureComputer: `get_dependency_closure` (src/commands.rs:2179-2211)

/-- Fuel-metered loop of `get_dependency_closure` (identical code is inlined
in the `issues_deps_graph` MCP tool, src/mcp.rs:1676-1700): pop an id, add it
to the result set, push its not-yet-collected dependencies and then every
not-yet-collected issue that depends on it.  The Rust `HashSet` result is
modelled as a duplicate-free list in insertion order (the final answer is
sorted, so iteration order is irrelevant); the `Vec` stack pops from the
end, hence the `reverse`. -/
def closureF (s : Store) : Nat → List Nat → List Nat → Option (List Nat)
  | 0, _, _ => none
  | _ + 1, result, [] => some result
  | fuel + 1, result, id :: rest =>
    if id ∈ result then closureF s fuel result rest
    else
      let result' := result ++ [id]
      let deps := (match load_issue s id with
        | some m => m.depends_on
        | none => []).filter (fun d => d ∉ result')
      let dependents := (s.filter
        (fun p => decide (id ∈ p.2.depends_on ∧ p.1 ∉ result'))).map (fun p => p.1)
      closureF s fuel result' ((deps ++ dependents).reverse ++ rest)

/-- Canonical fuel for `closureF`. -/
def closureFuel (s : Store) (root : Nat) : Nat :=
  ((insert root (storeIds s)).card + 1) * (totalDeps s + s.length + 1) + 2

/-- `Commands::get_dependency_closure(root, issues)` (src/commands.rs:2179):
everything connected to `root` through `depends_on` edges in either
direction, as a sorted list. -/
def get_dependency_closure (s : Store) (root : Nat) : Option (List Nat) :=
  (closureF s (closureFuel s root) [] [root]).map (fun r => r.insertionSort (· ≤ ·))

-- ### CriticalPathFinder: `find_chain` / `critical_path` (src/commands.rs:2044-2086)

/-- Fuel-metered `find_chain` (src/commands.rs:2047-2074, duplicated in
src/mcp.rs:1586-1612): depth-first search over "issues that depend on
`issue_id`", tracking the current path and the best chain found so far.
The Rust code threads one mutable `visited` set and `current_chain`, but
restores both on exit (`insert`/`push` at entry, `remove`/`pop` at exit are
exactly balanced), so passing them by value to each recursive call is
faithful; only `longest` flows between calls. -/
def find_chain (s : Store) (fuel issue_id : Nat) (visited : Finset Nat)
    (current_chain longest : List Nat) : Option (List Nat) :=
  match fuel with
  | 0 => none
  | fuel + 1 =>
    if issue_id ∈ visited then some longest
    else
      let visited' := insert issue_id visited
      let chain' := current_chain ++ [issue_id]
      let longest' := if longest.length < chain'.length then chain' else longest
      (s.filter (fun p => decide (issue_id ∈ p.2.depends_on))).foldlM
        (fun lg p => find_chain s fuel p.1 visited' chain' lg) longest'

/-- Canonical fuel for `find_chain`: the recursion depth is bounded by the
number of issues (every recursive call visits a fresh issue id). -/
def chainFuel (s : Store) : Nat := s.length + 1

/-- The chain computed by `Commands::critical_path` (src/commands.rs:2076-2086
= src/mcp.rs:1614-1623): try every issue as a start, keeping the longest
chain found (the shared `visited` set is empty at every top-level call
because `find_chain` restores it). -/
def critical_path_chain (s : Store) : Option (List Nat) :=
  s.foldlM (fun longest p => find_chain s (chainFuel s) p.1 ∅ [] longest) []

-- ### LayerScheduler: `compute_graph_layers` (src/commands.rs:2312-2356)

/-- The per-scan eligibility filter of `compute_graph_layers`
(src/commands.rs:2325-2339): a remaining id joins the next layer when its
record exists and every dependency is already assigned or outside the
working set (an id without a record is never eligible). -/
def eligibleLayer (s : Store) (issue_ids : List Nat) (assigned : Finset Nat)
    (remaining : List Nat) : List Nat :=
  remaining.filter (fun id =>
    match load_issue s id with
    | some m => m.depends_on.all (fun dep => decide (dep ∈ assigned ∨ dep ∉ issue_ids))
    | none => false)

/-- The layer a scan emits: the eligible ids, or — when none are eligible
while some remain (a cycle) — all remaining ids (src/commands.rs:2341-2344). -/
def scanLayer (s : Store) (issue_ids : List Nat) (assigned : Finset Nat)
    (remaining : List Nat) : List Nat :=
  if eligibleLayer s issue_ids assigned remaining = [] then remaining
  else eligibleLayer s issue_ids assigned remaining

/-- Fuel-metered loop of `compute_graph_layers`: emit `scanLayer` (sorted),
mark it assigned, drop it from the remaining ids, repeat until none
remain. -/
def layersF (s : Store) (issue_ids : List Nat) :
    Nat → Finset Nat → List Nat → Option (List (List Nat))
  | 0, _, _ => none
  | _ + 1, _, [] => some []
  | fuel + 1, assigned, remaining =>
    (layersF s issue_ids fuel (assigned ∪ (scanLayer s issue_ids assigned remaining).toFinset)
        (remaining.filter (fun id =>
          decide (id ∉ assigned ∪ (scanLayer s issue_ids assigned remaining).toFinset)))).map
      (fun ls => (scanLayer s issue_ids assigned remaining).insertionSort (· ≤ ·) :: ls)

/-- `Commands::compute_graph_layers(issue_ids, issue_map)`
(src/commands.rs:2312): topological layers of the working set, with a
dump-everything final layer when a cycle blocks progress. -/
def compute_graph_layers (s : Store) (issue_ids : List Nat) :
    Option (List (List Nat)) :=
  layersF s issue_ids (issue_ids.length + 1) ∅ issue_ids

-- ### CycleDetector: `find_cycles` (src/commands.rs:2487-2570)

/-- The mutable state threaded through Tarjan's algorithm in `find_cycles`:
the discovery counter (`index` in the source), the explicit stack, the
discovery-index and lowlink maps, the on-stack set, and the collected
cycles. -/
structure TarjanState where
  counter : Nat
  stack : List Nat
  indices : Nat → Option Nat
  lowlinks : Nat → Option Nat
  on_stack : Finset Nat
  cycles : List (List Nat)

/-- The `loop { stack.pop().unwrap() ... }` of SCC extraction
(src/commands.rs:2536-2544): pop and un-mark nodes, accumulating the
component, until `v` itself is popped.  `none` models the `unwrap` panic on
an empty stack (provably unreachable). -/
def popScc (v : Nat) : List Nat → Finset Nat → List Nat →
    Option (List Nat × List Nat × Finset Nat)
  | [], _, _ => none
  | w :: rest, onSt, scc =>
    if w = v then some (scc ++ [w], rest, onSt.erase w)
    else popScc v rest (onSt.erase w) (scc ++ [w])

/-- The entry bookkeeping of `strongconnect` (src/commands.rs:2509-2513):
assign `v` the next discovery index, make its lowlink the same, advance the
counter, push `v` and mark it on-stack. -/
def tarjanVisit (v : Nat) (st0 : TarjanState) : TarjanState :=
  { st0 with
    counter := st0.counter + 1
    stack := v :: st0.stack
    indices := fun k => if k = v then some st0.counter else st0.indices k
    lowlinks := fun k => if k = v then some st0.counter else st0.lowlinks k
    on_stack := insert v st0.on_stack }

/-- The component-extraction phase of `strongconnect`
(src/commands.rs:2534-2551): if `v`'s lowlink equals its index, pop the
stack down to `v` and record the component when it has more than one node.
Missing map entries model the source's panicking indexing. -/
def tarjanFinish (v : Nat) (st1 : TarjanState) : Option TarjanState :=
  match st1.lowlinks v, st1.indices v with
  | some vl, some vi =>
    if vl = vi then
      match popScc v st1.stack st1.on_stack [] with
      | none => none
      | some (scc, stack', onSt') =>
        some { st1 with
          stack := stack'
          on_stack := onSt'
          cycles := if 1 < scc.length then st1.cycles ++ [scc.reverse]
                    else st1.cycles }
    else some st1
  | _, _ => none

mutual

/-- Fuel-metered `strongconnect` (src/commands.rs:2499-2552): assign `v` its
discovery index and lowlink, push it, walk its dependencies (`tarjanFold`),
and if `v` closes its own component, pop the component and record it when it
has more than one node.  `none` models fuel exhaustion or one of the
source's `unwrap`/indexing panics; `strongconnect_total` shows neither
occurs with the canonical fuel. -/
def strongconnect (s : Store) (fuel v : Nat) (st0 : TarjanState) :
    Option TarjanState :=
  match fuel with
  | 0 => none
  | fuel + 1 =>
    match tarjanFold s fuel v (match load_issue s v with
        | some m => m.depends_on
        | none => []) (tarjanVisit v st0) with
    | none => none
    | some st1 => tarjanFinish v st1
  termination_by (fuel, 0, 0)

/-- The dependency loop of `strongconnect` (src/commands.rs:2518-2531):
recurse into a dependency without a discovery index and fold its lowlink
into `v`'s, or fold the index of an on-stack dependency into `v`'s
lowlink. -/
def tarjanFold (s : Store) (fuel v : Nat) (deps : List Nat)
    (acc : TarjanState) : Option TarjanState :=
  match deps with
  | [] => some acc
  | dep :: ds =>
    match (if acc.indices dep = none then
        match strongconnect s fuel dep acc with
        | none => none
        | some st' =>
          match st'.lowlinks dep, st'.lowlinks v with
          | some dep_lowlink, some v_lowlink =>
            some { st' with lowlinks := fun k =>
                     if k = v then some (min v_lowlink dep_lowlink)
                     else st'.lowlinks k }
          | _, _ => none
      else if dep ∈ acc.on_stack then
        match acc.indices dep, acc.lowlinks v with
        | some dep_index, some v_lowlink =>
          some { acc with lowlinks := fun k =>
                   if k = v then some (min v_lowlink dep_index)
                   else acc.lowlinks k }
        | _, _ => none
      else some acc) with
    | none => none
    | some acc' => tarjanFold s fuel v ds acc'
  termination_by (fuel, 1, deps.length)

end

/-- Canonical fuel for `strongconnect`: recursion only ever descends into an
id without a discovery index and assigns it one immediately, so the depth is
bounded by the number of ids the store mentions. -/
def tarjanFuel (s : Store) : Nat := s.length + totalDeps s + 1

/-- The initial Tarjan state. -/
def tarjanInit : TarjanState :=
  { counter := 0, stack := [], indices := fun _ => none, lowlinks := fun _ => none,
    on_stack := ∅, cycles := [] }

/-- `Commands::find_cycles(issues)` (src/commands.rs:2487): run
`strongconnect` from every not-yet-visited issue, returning every strongly
connected component with more than one node. -/
def find_cycles (s : Store) : Option (List (List Nat)) :=
  (s.foldlM (fun (st : TarjanState) p =>
      if st.indices p.1 = none then strongconnect s (tarjanFuel s) p.1 st else some st)
    tarjanInit).map (fun st => st.cycles)

-- ### The symmetry invariant and operation sequences

/-- Invariant I2 of the specification: for every pair of loadable issues,
`D ∈ S.depends_on ⟺ S ∈ D.blocks`. -/
def BlocksSymmetric (s : Store) : Prop :=
  ∀ a d ma md, load_issue s a = some ma → load_issue s d = some md →
    (d ∈ ma.depends_on ↔ a ∈ md.blocks)

/-- One `depend` request, through either entry point. -/
inductive DependOp where
  | cli (subject : Nat) (add_nums remove_nums : List Nat)
  | mcp (subject : Nat) (add_nums remove_nums : List Nat)

/-- Run one request through the corresponding entry point. -/
def runOp (s : Store) : DependOp → Except DependError Store
  | .cli subject a r => depend s subject a r
  | .mcp subject a r => mcpDepend s subject a r

/-- Run a sequence of `depend` requests against the store.  A request
rejected before any write (`notFound` from the existence check or
`cycleDetected` from the guard — both, by construction, precede the first
`update_issue_metadata` call) leaves the store unchanged and the sequence
continues, exactly as consecutive CLI/MCP invocations would.  A write
failure (`writeFailed`) would leave a partially mutated store; `none`
models such a sequence, which the symmetry claim excludes. -/
def runOps (s : Store) : List DependOp → Option Store
  | [] => some s
  | op :: rest =>
    match runOp s op with
    | .ok s' => runOps s' rest
    | .error (.notFound _) => runOps s rest
    | .error (.cycleDetected _ _) => runOps s rest
    | .error (.writeFailed _) => none

/-- Invariant I3 of the specification: the `depends_on` graph has no cycle
(no id reaches itself by a nonempty chain of dependency edges). -/
def Acyclic (s : Store) : Prop :=
  ∀ x, ¬ Relation.TransGen (depEdge s) x x

/-- The data-model invariants of §3 of the specification: `depends_on` and
`blocks` lists are sorted and duplicate-free, symmetry I2, acyclicity I3. -/
def StoreWF (s : Store) : Prop :=
  (∀ n m, load_issue s n = some m →
    m.depends_on.Sorted (· ≤ ·) ∧ m.depends_on.Nodup ∧
    m.blocks.Sorted (· ≤ ·) ∧ m.blocks.Nodup) ∧
  BlocksSymmetric s ∧ Acyclic s

/-- Termination measure of the `would_create_cycle` search: unvisited ids it
can still reach, weighted so that one step always decreases it. -/
def wccMeasure (s : Store) (visited : Finset Nat) (stack : List Nat) : Nat :=
  ((storeIds s ∪ stack.toFinset) \ visited).card * (totalDeps s + 1) + stack.length

/-- The dependency edge relation restricted to a working set. -/
def depEdgeIn (s : Store) (ids : List Nat) (x y : Nat) : Prop :=
  depEdge s x y ∧ x ∈ ids ∧ y ∈ ids

/-- Acyclicity of the `depends_on` relation restricted to a working set. -/
def AcyclicOn (s : Store) (ids : List Nat) : Prop :=
  ∀ x, ¬ Relation.TransGen (depEdgeIn s ids) x x

/-- The layer ordering property: every in-working-set dependency of a node
in some layer lies in `assigned` (the union of all earlier layers) or in a
strictly earlier layer of the list. -/
def layersProp (s : Store) (ids : List Nat) : Finset Nat → List (List Nat) → Prop
  | _, [] => True
  | assigned, l :: rest =>
    (∀ n ∈ l, ∀ m, load_issue s n = some m →
      ∀ d ∈ m.depends_on, d ∈ ids → d ∈ assigned) ∧
    layersProp s ids (assigned ∪ l.toFinset) rest

/-- The ids of the store that already carry a discovery index. -/
def indexedSet (s : Store) (st : TarjanState) : Finset Nat :=
  (storeIds s).filter (fun x => (st.indices x).isSome)

-- ### Example stores used by the claims

/-- The diamond of P7: A(1) depends on B(2) and C(3), which both depend on
D(4). -/
def diamondStore : Store :=
  [(1, ⟨[2, 3], []⟩), (2, ⟨[4], [1]⟩), (3, ⟨[4], [1]⟩), (4, ⟨[], [2, 3]⟩)]

/-- The three-cycle of P4: 1 → 2 → 3 → 1 (as `depends_on` edges). -/
def triangleStore : Store :=
  [(1, ⟨[2], []⟩), (2, ⟨[3], []⟩), (3, ⟨[1], []⟩)]

/-- The chain of P6: A(1) depends on B(2), B(2) depends on C(3). -/
def chainStore : Store :=
  [(1, ⟨[2], []⟩), (2, ⟨[3], [1]⟩), (3, ⟨[], [2]⟩)]

-- ### Pointwise behaviour of `update_issue_metadata`

theorem load_issue_cons {a : Nat} {m : IssueMetadata} {rest : Store} (k : Nat) :
    load_issue ((a, m) :: rest) k = if a = k then some m else load_issue rest k :=
  by
  by_cases h : a = k
  · simp [load_issue, List.find?_cons, h]
  · simp [load_issue, List.find?_cons, h]

theorem update_issue_metadata_isSome {s : Store} {n : Nat}
    {f : IssueMetadata → IssueMetadata} :
    (update_issue_metadata s n f).isSome ↔ (load_issue s n).isSome := by
  induction s with
  | nil => simp [update_issue_metadata, load_issue]
  | cons p rest ih =>
    obtain ⟨k, m⟩ := p
    by_cases hk : k = n
    · subst hk
      simp [update_issue_metadata, load_issue_cons]
    · simp only [update_issue_metadata, if_neg hk]
      rw [load_issue_cons, if_neg hk]
      simpa using ih

theorem load_issue_update {s s' : Store} {n : Nat} {f : IssueMetadata → IssueMetadata}
    (h : update_issue_metadata s n f = some s') (k : Nat) :
    load_issue s' k = if k = n then (load_issue s n).map f else load_issue s k := by
  induction s generalizing s' with
  | nil => simp [update_issue_metadata] at h
  | cons p rest ih =>
    obtain ⟨a, m⟩ := p
    by_cases ha : a = n
    · subst ha
      rw [update_issue_metadata, if_pos rfl] at h
      cases h
      by_cases hk : k = a
      · subst hk
        simp [load_issue_cons]
      · rw [load_issue_cons, if_neg (fun hh => hk hh.symm), if_neg hk,
          load_issue_cons, if_neg (fun hh => hk hh.symm)]
    · rw [update_issue_metadata, if_neg ha] at h
      rcases hr : update_issue_metadata rest n f with _ | r
      · rw [hr] at h; simp at h
      · rw [hr] at h
        simp only [Option.map_some', Option.some.injEq] at h
        subst h
        by_cases hk : k = a
        · subst hk
          have hkn : ¬ k = n := fun hh => ha (hh ▸ rfl)
          rw [load_issue_cons, if_pos rfl]
          simp [if_neg hkn, load_issue_cons]
        · rw [load_issue_cons, if_neg (fun hh => hk hh.symm), ih hr]
          by_cases hkn : k = n
          · subst hkn
            rw [if_pos rfl, if_pos rfl, load_issue_cons, if_neg ha]
          · rw [if_neg hkn, if_neg hkn, load_issue_cons, if_neg (fun hh => hk hh.symm)]

-- ### Behaviour of the three record mutators

theorem mem_addFold (add_nums : List Nat) (l : List Nat) (x : Nat) :
    x ∈ add_nums.foldl (fun d a => if a ∈ d then d else d ++ [a]) l ↔
      x ∈ l ∨ x ∈ add_nums := by
  induction add_nums generalizing l with
  | nil => simp
  | cons a rest ih =>
    simp only [List.foldl_cons]
    by_cases ha : a ∈ l
    · rw [if_pos ha, ih]
      constructor
      · rintro (h | h)
        · exact Or.inl h
        · exact Or.inr (List.mem_cons_of_mem _ h)
      · rintro (h | h)
        · exact Or.inl h
        · rcases List.mem_cons.mp h with h | h
          · exact Or.inl (h ▸ ha)
          · exact Or.inr h
    · rw [if_neg ha, ih]
      simp only [List.mem_append, List.mem_singleton, List.mem_cons]
      tauto

theorem nodup_addFold (add_nums : List Nat) (l : List Nat) (hl : l.Nodup) :
    (add_nums.foldl (fun d a => if a ∈ d then d else d ++ [a]) l).Nodup := by
  induction add_nums generalizing l with
  | nil => exact hl
  | cons a rest ih =>
    simp only [List.foldl_cons]
    by_cases ha : a ∈ l
    · rw [if_pos ha]; exact ih l hl
    · rw [if_neg ha]
      refine ih _ ?_
      simpa [List.nodup_append] using ⟨hl, ha⟩

theorem applyDependMeta_blocks (add_nums remove_nums : List Nat) (m : IssueMetadata) :
    (applyDependMeta add_nums remove_nums m).blocks = m.blocks := rfl

theorem applyDependMeta_mem (add_nums remove_nums : List Nat) (m : IssueMetadata)
    (x : Nat) :
    x ∈ (applyDependMeta add_nums remove_nums m).depends_on ↔
      (x ∈ m.depends_on ∨ x ∈ add_nums) ∧ x ∉ remove_nums := by
  unfold applyDependMeta
  simp only
  rw [(List.perm_insertionSort _ _).mem_iff, List.mem_filter, mem_addFold]
  simp [and_comm]

theorem applyDependMeta_sorted (add_nums remove_nums : List Nat) (m : IssueMetadata) :
    (applyDependMeta add_nums remove_nums m).depends_on.Sorted (· ≤ ·) :=
  List.sorted_insertionSort _ _

theorem applyDependMeta_nodup (add_nums remove_nums : List Nat) (m : IssueMetadata)
    (hm : m.depends_on.Nodup) :
    (applyDependMeta add_nums remove_nums m).depends_on.Nodup := by
  unfold applyDependMeta
  simp only
  exact (List.perm_insertionSort _ _).nodup_iff.mpr
    ((nodup_addFold _ _ hm).filter _)

theorem addBlocksMeta_depends (subject : Nat) (m : IssueMetadata) :
    (addBlocksMeta subject m).depends_on = m.depends_on := rfl

theorem addBlocksMeta_mem (subject : Nat) (m : IssueMetadata) (y : Nat) :
    y ∈ (addBlocksMeta subject m).blocks ↔ y ∈ m.blocks ∨ y = subject := by
  unfold addBlocksMeta
  simp only
  rw [(List.perm_insertionSort _ _).mem_iff]
  by_cases hs : subject ∈ m.blocks
  · rw [if_pos hs]
    constructor
    · exact Or.inl
    · rintro (h | h)
      · exact h
      · exact h ▸ hs
  · rw [if_neg hs]
    simp

theorem removeBlocksMeta_depends (subject : Nat) (m : IssueMetadata) :
    (removeBlocksMeta subject m).depends_on = m.depends_on := rfl

theorem removeBlocksMeta_mem (subject : Nat) (m : IssueMetadata) (y : Nat) :
    y ∈ (removeBlocksMeta subject m).blocks ↔ y ∈ m.blocks ∧ y ≠ subject := by
  unfold removeBlocksMeta
  simp [List.mem_filter]

-- ### Effect of the reverse-edge loops on every record

theorem addBlocksAll_load {subject : Nat} :
    ∀ {ds : List Nat} {s s' : Store}, addBlocksAll s subject ds = .ok s' → ∀ k,
      (load_issue s' k = none ↔ load_issue s k = none) ∧
      ∀ m m', load_issue s k = some m → load_issue s' k = some m' →
        m'.depends_on = m.depends_on ∧
        (∀ y, y ≠ subject → (y ∈ m'.blocks ↔ y ∈ m.blocks)) ∧
        (subject ∈ m'.blocks ↔ (subject ∈ m.blocks ∨ k ∈ ds)) := by
  intro ds
  induction ds with
  | nil =>
    intro s s' h k
    simp only [addBlocksAll] at h
    cases h
    refine ⟨Iff.rfl, ?_⟩
    intro m m' hm hm'
    rw [hm] at hm'
    cases hm'
    simp
  | cons d rest ih =>
    intro s s' h k
    simp only [addBlocksAll] at h
    rcases hu : update_issue_metadata s d (addBlocksMeta subject) with _ | s1
    · rw [hu] at h; cases h
    · rw [hu] at h
      have hmid := load_issue_update hu k
      obtain ⟨hnone, hsome⟩ := ih h k
      constructor
      · rw [hnone, hmid]
        by_cases hk : k = d
        · simp [hk]
        · simp [hk]
      · intro m m' hm hm'
        by_cases hk : k = d
        · subst hk
          rw [if_pos rfl, hm] at hmid
          obtain ⟨hd, hb, hsb⟩ := hsome _ _ hmid hm'
          refine ⟨by rw [hd, addBlocksMeta_depends], ?_, ?_⟩
          · intro y hy
            rw [hb y hy, addBlocksMeta_mem]
            constructor
            · rintro (h' | h')
              · exact h'
              · exact absurd h' hy
            · exact Or.inl
          · rw [hsb, addBlocksMeta_mem]
            simp only [List.mem_cons]
            tauto
        · rw [if_neg hk, hm] at hmid
          obtain ⟨hd, hb, hsb⟩ := hsome _ _ hmid hm'
          refine ⟨hd, hb, ?_⟩
          rw [hsb]
          simp only [List.mem_cons]
          tauto

theorem removeBlocksAll_load {subject : Nat} :
    ∀ {ds : List Nat} {s s' : Store}, removeBlocksAll s subject ds = .ok s' → ∀ k,
      (load_issue s' k = none ↔ load_issue s k = none) ∧
      ∀ m m', load_issue s k = some m → load_issue s' k = some m' →
        m'.depends_on = m.depends_on ∧
        (∀ y, y ≠ subject → (y ∈ m'.blocks ↔ y ∈ m.blocks)) ∧
        (subject ∈ m'.blocks ↔ (subject ∈ m.blocks ∧ k ∉ ds)) := by
  intro ds
  induction ds with
  | nil =>
    intro s s' h k
    simp only [removeBlocksAll] at h
    cases h
    refine ⟨Iff.rfl, ?_⟩
    intro m m' hm hm'
    rw [hm] at hm'
    cases hm'
    simp
  | cons d rest ih =>
    intro s s' h k
    simp only [removeBlocksAll] at h
    rcases hu : update_issue_metadata s d (removeBlocksMeta subject) with _ | s1
    · rw [hu] at h; cases h
    · rw [hu] at h
      have hmid := load_issue_update hu k
      obtain ⟨hnone, hsome⟩ := ih h k
      constructor
      · rw [hnone, hmid]
        by_cases hk : k = d
        · simp [hk]
        · simp [hk]
      · intro m m' hm hm'
        by_cases hk : k = d
        · subst hk
          rw [if_pos rfl, hm] at hmid
          obtain ⟨hd, hb, hsb⟩ := hsome _ _ hmid hm'
          refine ⟨by rw [hd, removeBlocksMeta_depends], ?_, ?_⟩
          · intro y hy
            rw [hb y hy, removeBlocksMeta_mem]
            constructor
            · exact fun h' => h'.1
            · exact fun h' => ⟨h', hy⟩
          · rw [hsb, removeBlocksMeta_mem]
            simp only [List.mem_cons]
            tauto
        · rw [if_neg hk, hm] at hmid
          obtain ⟨hd, hb, hsb⟩ := hsome _ _ hmid hm'
          refine ⟨hd, hb, ?_⟩
          rw [hsb]
          simp only [List.mem_cons]
          tauto

/-- Pointwise effect of the whole mutation phase: the subject's `depends_on`
is rewritten by `applyDependMeta`, every other `depends_on` is untouched,
and for every record the subject's membership in `blocks` afterwards is
"was there or was added, and not removed"; membership of anyone else in a
`blocks` list never changes.  Records are neither created nor deleted. -/
theorem dependMutate_load {s s' : Store} {subject : Nat} {add_nums remove_nums : List Nat}
    (h : dependMutate s subject add_nums remove_nums = .ok s') (k : Nat) :
    (load_issue s' k = none ↔ load_issue s k = none) ∧
    ∀ m m', load_issue s k = some m → load_issue s' k = some m' →
      (m'.depends_on =
        if k = subject then (applyDependMeta add_nums remove_nums m).depends_on
        else m.depends_on) ∧
      (∀ y, y ≠ subject → (y ∈ m'.blocks ↔ y ∈ m.blocks)) ∧
      (subject ∈ m'.blocks ↔ ((subject ∈ m.blocks ∨ k ∈ add_nums) ∧ k ∉ remove_nums)) := by
  unfold dependMutate at h
  split at h
  · cases h
  case _ s1 hu =>
  split at h
  · cases h
  case _ s2 ha =>
  have h1 := load_issue_update hu k
  obtain ⟨h2n, h2s⟩ := addBlocksAll_load ha k
  obtain ⟨h3n, h3s⟩ := removeBlocksAll_load h k
  constructor
  · rw [h3n, h2n, h1]
    by_cases hk : k = subject
    · simp [hk]
    · simp [hk]
  · intro m m' hm hm'
    have hm1 : load_issue s1 k =
        if k = subject then some (applyDependMeta add_nums remove_nums m) else some m := by
      by_cases hk : k = subject
      · subst hk
        rw [h1, if_pos rfl, hm, if_pos rfl]
        rfl
      · rw [h1, if_neg hk, hm, if_neg hk]
    set mid : IssueMetadata :=
      if k = subject then applyDependMeta add_nums remove_nums m else m with hmid
    have hm1' : load_issue s1 k = some mid := by
      rw [hm1, hmid]
      by_cases hk : k = subject <;> simp [hk]
    rcases hs2 : load_issue s2 k with _ | m2
    · rw [h2n, hm1'] at hs2; cases hs2
    · obtain ⟨hd2, hb2, hsb2⟩ := h2s _ _ hm1' hs2
      obtain ⟨hd3, hb3, hsb3⟩ := h3s _ _ hs2 hm'
      have hmidd : mid.depends_on =
          if k = subject then (applyDependMeta add_nums remove_nums m).depends_on
          else m.depends_on := by
        rw [hmid]
        by_cases hk : k = subject <;> simp [hk]
      have hmidb : ∀ y, y ∈ mid.blocks ↔ y ∈ m.blocks := by
        intro y
        rw [hmid]
        by_cases hk : k = subject <;> simp [hk, applyDependMeta_blocks]
      refine ⟨by rw [hd3, hd2, hmidd], ?_, ?_⟩
      · intro y hy
        rw [hb3 y hy, hb2 y hy, hmidb]
      · rw [hsb3, hsb2, hmidb]

-- ### The symmetry invariant I2

/-- I2 for a concrete store follows from the corresponding check on its
entry list (used to discharge the invariant by `decide` on examples). -/
theorem blocksSymmetric_of_entries {s : Store}
    (h : ∀ p ∈ s, ∀ q ∈ s, (q.1 ∈ p.2.depends_on ↔ p.1 ∈ q.2.blocks)) :
    BlocksSymmetric s :=
  fun _ _ ma md hma hmd => h (_, ma) (load_issue_mem hma) (_, md) (load_issue_mem hmd)

/-- A successful mutation phase preserves I2, whatever the request was. -/
theorem dependMutate_symmetric {s s' : Store} {subject : Nat}
    {add_nums remove_nums : List Nat}
    (hsym : BlocksSymmetric s)
    (h : dependMutate s subject add_nums remove_nums = .ok s') :
    BlocksSymmetric s' := by
  intro a d ma' md' hma' hmd'
  obtain ⟨hna, hsa⟩ := dependMutate_load h a
  obtain ⟨hnd, hsd⟩ := dependMutate_load h d
  rcases hma : load_issue s a with _ | ma
  · rw [hna.mpr hma] at hma'; cases hma'
  rcases hmd : load_issue s d with _ | md
  · rw [hnd.mpr hmd] at hmd'; cases hmd'
  obtain ⟨hda, -, -⟩ := hsa _ _ hma hma'
  obtain ⟨-, hbd, hsbd⟩ := hsd _ _ hmd hmd'
  by_cases has : a = subject
  · subst has
    rw [hda, if_pos rfl, applyDependMeta_mem, hsbd, hsym a d ma md hma hmd]
  · rw [hda, if_neg has, hbd a has, hsym a d ma md hma hmd]

-- ### The two entry points reduce to the shared mutation phase on success

theorem depend_ok_mutate {s s' : Store} {subject : Nat} {add_nums remove_nums : List Nat}
    (h : depend s subject add_nums remove_nums = .ok s') :
    dependMutate s subject add_nums remove_nums = .ok s' := by
  unfold depend at h
  split at h
  · cases h
  · split at h
    · cases h
    · exact h

theorem mcpDepend_ok_mutate {s s' : Store} {subject : Nat} {add_nums remove_nums : List Nat}
    (h : mcpDepend s subject add_nums remove_nums = .ok s') :
    dependMutate s subject add_nums remove_nums = .ok s' := by
  unfold mcpDepend at h
  split at h
  · cases h
  · exact h

theorem runOps_symmetric {ops : List DependOp} :
    ∀ {s s' : Store}, BlocksSymmetric s → runOps s ops = some s' →
      BlocksSymmetric s' := by
  induction ops with
  | nil =>
    intro s s' hsym h
    simp only [runOps] at h
    cases h
    exact hsym
  | cons op rest ih =>
    intro s s' hsym h
    simp only [runOps] at h
    rcases hop : runOp s op with e | s1
    · rcases e with id | sd | id <;> rw [hop] at h
      · exact ih hsym h
      · exact ih hsym h
      · cases h
    · rw [hop] at h
      rcases op with ⟨subject, a, r⟩ | ⟨subject, a, r⟩
      · exact ih (dependMutate_symmetric hsym (depend_ok_mutate hop)) h
      · exact ih (dependMutate_symmetric hsym (mcpDepend_ok_mutate hop)) h

-- ### Claim C4 — the symmetry invariant survives any successful sequence

/-- **C4.** After any sequence of dependency add/remove operations (through
either the CLI or the MCP entry point) starting from a symmetric store, in
which no write to a record fails (requests rejected before their first
write are allowed and leave the store unchanged), the symmetry invariant I2
holds: `D ∈ S.depends_on ↔ S ∈ D.blocks` for every pair of issues. -/
theorem C4_symmetry_after_any_sequence (s s' : Store) (ops : List DependOp)
    (hsym : BlocksSymmetric s) (h : runOps s ops = some s') :
    BlocksSymmetric s' :=
  runOps_symmetric hsym h

/-- Witness for C4 at a concrete input: three requests (two CLI, one MCP)
from an empty three-issue store end in a symmetric store. -/
theorem C4_symmetry_after_any_sequence_witness :
    BlocksSymmetric [(1, ⟨[], [3]⟩), (2, ⟨[], []⟩), (3, ⟨[1], []⟩)] :=
  C4_symmetry_after_any_sequence
    [(1, ⟨[], []⟩), (2, ⟨[], []⟩), (3, ⟨[], []⟩)]
    [(1, ⟨[], [3]⟩), (2, ⟨[], []⟩), (3, ⟨[1], []⟩)]
    [.cli 1 [2] [], .mcp 3 [1] [], .cli 1 [] [2]]
    (blocksSymmetric_of_entries (by decide))
    (by decide)

-- ### Claim C5 — the resulting depends_on list

/-- **C5.** For every subject and every add/remove list accepted by the
CLI `depend` operation, the subject's resulting `depends_on` is sorted
ascending, duplicate-free (given the stored list was), and contains exactly
the old ids and the added ids minus the removed ids — so an id in both
`add` and `remove` ends up absent. -/
theorem C5_depend_result (s s' : Store) (subject : Nat)
    (add_nums remove_nums : List Nat) (m : IssueMetadata)
    (h : depend s subject add_nums remove_nums = .ok s')
    (hm : load_issue s subject = some m) (hnd : m.depends_on.Nodup) :
    ∃ m', load_issue s' subject = some m' ∧
      m'.depends_on.Sorted (· ≤ ·) ∧ m'.depends_on.Nodup ∧
      (∀ x, x ∈ m'.depends_on ↔ ((x ∈ m.depends_on ∨ x ∈ add_nums) ∧ x ∉ remove_nums)) := by
  have hmut := depend_ok_mutate h
  obtain ⟨hn, hs⟩ := dependMutate_load hmut subject
  rcases hm' : load_issue s' subject with _ | m'
  · rw [hn.mp hm'] at hm; cases hm
  obtain ⟨hd, -, -⟩ := hs _ _ hm hm'
  rw [if_pos rfl] at hd
  refine ⟨m', rfl, ?_, ?_, ?_⟩
  · rw [hd]; exact applyDependMeta_sorted _ _ _
  · rw [hd]; exact applyDependMeta_nodup _ _ _ hnd
  · intro x
    rw [hd, applyDependMeta_mem]

/-- Witness for C5 at a concrete input: `depend 1 (add [3,2]) (remove [2])`
on a store where issue 1 already depends on 2. -/
theorem C5_depend_result_witness :
    ∃ m', load_issue [(1, ⟨[3], []⟩), (2, ⟨[], []⟩), (3, ⟨[], [1]⟩)] 1 = some m' ∧
      m'.depends_on.Sorted (· ≤ ·) ∧ m'.depends_on.Nodup ∧
      (∀ x, x ∈ m'.depends_on ↔ ((x ∈ [2] ∨ x ∈ [3, 2]) ∧ x ∉ [2])) :=
  C5_depend_result [(1, ⟨[2], []⟩), (2, ⟨[], [1]⟩), (3, ⟨[], []⟩)]
    [(1, ⟨[3], []⟩), (2, ⟨[], []⟩), (3, ⟨[], [1]⟩)] 1 [3, 2] [2] ⟨[2], []⟩
    (by rfl) (by rfl) (by decide)

-- ### Correctness of the cycle guard

theorem depends_length_le {s : Store} {n : Nat} {m : IssueMetadata}
    (h : load_issue s n = some m) : m.depends_on.length ≤ totalDeps s := by
  have hmem : m.depends_on.length ∈ s.map (fun p => p.2.depends_on.length) :=
    List.mem_map.mpr ⟨(n, m), load_issue_mem h, rfl⟩
  exact List.single_le_sum (fun _ _ => Nat.zero_le _) _ hmem

theorem wccMeasure_skip {s : Store} {visited : Finset Nat} {current : Nat}
    {rest : List Nat} :
    wccMeasure s visited rest < wccMeasure s visited (current :: rest) := by
  unfold wccMeasure
  have hsub : (storeIds s ∪ rest.toFinset) \ visited ⊆
      (storeIds s ∪ (current :: rest).toFinset) \ visited := by
    intro x hx
    rw [Finset.mem_sdiff] at hx ⊢
    refine ⟨?_, hx.2⟩
    rcases Finset.mem_union.mp hx.1 with h | h
    · exact Finset.mem_union_left _ h
    · exact Finset.mem_union_right _ (by simp at h ⊢; exact Or.inr h)
  have := Finset.card_le_card hsub
  have hl : rest.length < (current :: rest).length := by simp
  calc ((storeIds s ∪ rest.toFinset) \ visited).card * (totalDeps s + 1) + rest.length
      ≤ ((storeIds s ∪ (current :: rest).toFinset) \ visited).card * (totalDeps s + 1)
        + rest.length := by
        exact Nat.add_le_add_right (Nat.mul_le_mul_right _ this) _
    _ < _ := by exact Nat.add_lt_add_left hl _

theorem wccMeasure_push {s : Store} {visited : Finset Nat} {current : Nat}
    {rest deps : List Nat}
    (hc : current ∉ visited)
    (hdeps : ∀ d ∈ deps, d ∈ storeIds s) (hlen : deps.length ≤ totalDeps s) :
    wccMeasure s (insert current visited)
        ((deps.filter (fun d => d ∉ insert current visited)).reverse ++ rest) <
      wccMeasure s visited (current :: rest) := by
  unfold wccMeasure
  set filtered := deps.filter (fun d => d ∉ insert current visited) with hf
  set S0 := (storeIds s ∪ (current :: rest).toFinset) \ visited with hS0
  set S1 := (storeIds s ∪ (filtered.reverse ++ rest).toFinset) \ insert current visited
    with hS1
  have hcS0 : current ∈ S0 := by
    rw [hS0, Finset.mem_sdiff]
    exact ⟨Finset.mem_union_right _ (by simp), hc⟩
  have hsub : S1 ⊆ S0.erase current := by
    intro x hx
    rw [hS1, Finset.mem_sdiff] at hx
    obtain ⟨hx1, hx2⟩ := hx
    rw [Finset.mem_insert] at hx2
    push_neg at hx2
    rw [Finset.mem_erase, hS0, Finset.mem_sdiff]
    refine ⟨hx2.1, ?_, hx2.2⟩
    rcases Finset.mem_union.mp hx1 with h | h
    · exact Finset.mem_union_left _ h
    · rw [List.mem_toFinset, List.mem_append] at h
      rcases h with h | h
      · rw [List.mem_reverse] at h
        exact Finset.mem_union_left _ (hdeps x (List.mem_of_mem_filter h))
      · exact Finset.mem_union_right _ (by simp [h])
  have hcard : S1.card + 1 ≤ S0.card := by
    have h1 : S1.card ≤ (S0.erase current).card := Finset.card_le_card hsub
    have h2 : (S0.erase current).card + 1 = S0.card :=
      Finset.card_erase_add_one hcS0
    omega
  have hlen' : (filtered.reverse ++ rest).length ≤ totalDeps s + rest.length := by
    rw [List.length_append, List.length_reverse]
    have : filtered.length ≤ deps.length := List.length_filter_le _ _
    omega
  set P := totalDeps s + 1 with hP
  calc S1.card * P + (filtered.reverse ++ rest).length
      ≤ S1.card * P + (totalDeps s + rest.length) := Nat.add_le_add_left hlen' _
    _ < S1.card * P + P + rest.length := by omega
    _ = (S1.card + 1) * P + rest.length := by ring
    _ ≤ S0.card * P + rest.length := Nat.add_le_add_right (Nat.mul_le_mul_right _ hcard) _
    _ < S0.card * P + (current :: rest).length := by simp [Nat.lt_succ_self]

theorem wccF_isSome {s : Store} {bug : Nat} :
    ∀ {fuel : Nat} {visited : Finset Nat} {stack : List Nat},
      wccMeasure s visited stack < fuel → (wccF s bug fuel visited stack).isSome := by
  intro fuel
  induction fuel with
  | zero => intro visited stack h; exact absurd h (Nat.not_lt_zero _)
  | succ fuel ih =>
    intro visited stack h
    match stack with
    | [] => simp [wccF]
    | current :: rest =>
      by_cases hb : current = bug
      · simp [wccF, hb]
      · by_cases hv : current ∈ visited
        · have hm : wccMeasure s visited rest < fuel :=
            Nat.lt_of_lt_of_le wccMeasure_skip (Nat.lt_succ_iff.mp h)
          simpa [wccF, hb, hv] using ih hm
        · rcases hload : load_issue s current with _ | m
          · have hm : wccMeasure s (insert current visited)
                ((List.filter (fun d => d ∉ insert current visited) []).reverse ++ rest)
                < fuel :=
              Nat.lt_of_lt_of_le (wccMeasure_push hv (by simp) (by simp))
                (Nat.lt_succ_iff.mp h)
            simpa [wccF, hb, hv, hload] using ih hm
          · have hm : wccMeasure s (insert current visited)
                ((m.depends_on.filter (fun d => d ∉ insert current visited)).reverse ++ rest)
                < fuel :=
              Nat.lt_of_lt_of_le
                (wccMeasure_push hv
                  (fun d hd => mem_storeIds_of_dep (load_issue_mem hload) hd)
                  (depends_length_le hload))
                (Nat.lt_succ_iff.mp h)
            simpa [wccF, hb, hv, hload] using ih hm

theorem wccF_sound {s : Store} {bug start : Nat} :
    ∀ {fuel : Nat} {visited : Finset Nat} {stack : List Nat},
      (∀ x ∈ stack, Relation.ReflTransGen (depEdge s) start x) →
      wccF s bug fuel visited stack = some true →
      Relation.ReflTransGen (depEdge s) start bug := by
  intro fuel
  induction fuel with
  | zero => intro visited stack _ h; cases h
  | succ fuel ih =>
    intro visited stack hstack h
    match stack with
    | [] => simp [wccF] at h
    | current :: rest =>
      by_cases hb : current = bug
      · exact hb ▸ hstack current (List.mem_cons_self _ _)
      · by_cases hv : current ∈ visited
        · rw [wccF, if_neg hb, if_pos hv] at h
          exact ih (fun x hx => hstack x (List.mem_cons_of_mem _ hx)) h
        · rcases hload : load_issue s current with _ | m
          · rw [wccF, if_neg hb, if_neg hv] at h
            simp only [hload] at h
            refine ih ?_ h
            intro x hx
            simp only [List.filter_nil, List.reverse_nil, List.nil_append] at hx
            exact hstack x (List.mem_cons_of_mem _ hx)
          · rw [wccF, if_neg hb, if_neg hv] at h
            simp only [hload] at h
            refine ih ?_ h
            intro x hx
            rw [List.mem_append] at hx
            rcases hx with hx | hx
            · rw [List.mem_reverse] at hx
              have hxd : x ∈ m.depends_on := List.mem_of_mem_filter hx
              exact Relation.ReflTransGen.tail
                (hstack current (List.mem_cons_self _ _)) ⟨m, hload, hxd⟩
            · exact hstack x (List.mem_cons_of_mem _ hx)

theorem reach_mem_closed {s : Store} {V : Finset Nat} {x y : Nat}
    (hcl : ∀ v ∈ V, ∀ d, depEdge s v d → d ∈ V) (hx : x ∈ V)
    (h : Relation.ReflTransGen (depEdge s) x y) : y ∈ V := by
  induction h with
  | refl => exact hx
  | tail _ he ih => exact hcl _ ih _ he

theorem wccF_complete {s : Store} {bug : Nat} :
    ∀ {fuel : Nat} {visited : Finset Nat} {stack : List Nat},
      wccMeasure s visited stack < fuel →
      (∀ v ∈ visited, ∀ d, depEdge s v d → d ∈ visited ∨ d ∈ stack) →
      bug ∉ visited →
      (∃ x, (x ∈ visited ∨ x ∈ stack) ∧ Relation.ReflTransGen (depEdge s) x bug) →
      wccF s bug fuel visited stack = some true := by
  intro fuel
  induction fuel with
  | zero => intro visited stack h; exact absurd h (Nat.not_lt_zero _)
  | succ fuel ih =>
    intro visited stack hfuel hclosed hbug hreach
    match stack with
    | [] =>
      exfalso
      obtain ⟨x, hx, hrtg⟩ := hreach
      have hxv : x ∈ visited := by
        rcases hx with hx | hx
        · exact hx
        · cases hx
      have : bug ∈ visited :=
        reach_mem_closed
          (fun v hv d hd => by
            rcases hclosed v hv d hd with h | h
            · exact h
            · cases h) hxv hrtg
      exact hbug this
    | current :: rest =>
      by_cases hb : current = bug
      · rw [wccF, if_pos hb]
      · by_cases hv : current ∈ visited
        · rw [wccF, if_neg hb, if_pos hv]
          refine ih (Nat.lt_of_lt_of_le wccMeasure_skip (Nat.lt_succ_iff.mp hfuel))
            ?_ hbug ?_
          · intro v hvv d hd
            rcases hclosed v hvv d hd with h | h
            · exact Or.inl h
            · rcases List.mem_cons.mp h with h | h
              · exact Or.inl (h ▸ hv)
              · exact Or.inr h
          · obtain ⟨x, hx, hrtg⟩ := hreach
            refine ⟨x, ?_, hrtg⟩
            rcases hx with hx | hx
            · exact Or.inl hx
            · rcases List.mem_cons.mp hx with hx | hx
              · exact Or.inl (hx ▸ hv)
              · exact Or.inr hx
        · have hgen : ∀ (deps : List Nat),
              (∀ d, depEdge s current d → d ∈ deps) →
              (∀ d ∈ deps, d ∈ storeIds s) →
              deps.length ≤ totalDeps s →
              wccF s bug fuel (insert current visited)
                ((deps.filter (fun d => d ∉ insert current visited)).reverse ++ rest) =
                some true := by
            intro deps hdeps hdmem hdlen
            refine ih
              (Nat.lt_of_lt_of_le (wccMeasure_push hv hdmem hdlen)
                (Nat.lt_succ_iff.mp hfuel)) ?_ ?_ ?_
            · intro v hvv d hd
              rcases Finset.mem_insert.mp hvv with hvc | hvv
              · subst hvc
                by_cases hdv : d ∈ insert v visited
                · exact Or.inl hdv
                · refine Or.inr (List.mem_append.mpr (Or.inl ?_))
                  rw [List.mem_reverse]
                  exact List.mem_filter.mpr ⟨hdeps d hd, by simpa using hdv⟩
              · rcases hclosed v hvv d hd with h | h
                · exact Or.inl (Finset.mem_insert_of_mem h)
                · rcases List.mem_cons.mp h with h | h
                  · exact Or.inl (h ▸ Finset.mem_insert_self _ _)
                  · exact Or.inr (List.mem_append.mpr (Or.inr h))
            · rw [Finset.mem_insert]
              push_neg
              exact ⟨fun h => hb h.symm, hbug⟩
            · obtain ⟨x, hx, hrtg⟩ := hreach
              refine ⟨x, ?_, hrtg⟩
              rcases hx with hx | hx
              · exact Or.inl (Finset.mem_insert_of_mem hx)
              · rcases List.mem_cons.mp hx with hx | hx
                · exact Or.inl (hx ▸ Finset.mem_insert_self _ _)
                · exact Or.inr (List.mem_append.mpr (Or.inr hx))
          rcases hload : load_issue s current with _ | m
          · rw [wccF, if_neg hb, if_neg hv]
            simp only [hload]
            refine hgen [] ?_ (by simp) (by simp)
            intro d ⟨mm, hmm, _⟩
            rw [hload] at hmm
            cases hmm
          · rw [wccF, if_neg hb, if_neg hv]
            simp only [hload]
            refine hgen m.depends_on ?_
              (fun d hd => mem_storeIds_of_dep (load_issue_mem hload) hd)
              (depends_length_le hload)
            intro d ⟨mm, hmm, hdd⟩
            rw [hload] at hmm
            cases hmm
            exact hdd

theorem would_create_cycle_isSome (s : Store) (bug dep : Nat) :
    (would_create_cycle s bug dep).isSome := by
  apply wccF_isSome
  unfold wccMeasure wccFuel
  have hcard : ((storeIds s ∪ [dep].toFinset) \ (∅ : Finset Nat)).card ≤
      (storeIds s).card + 1 := by
    rw [Finset.sdiff_empty]
    calc (storeIds s ∪ [dep].toFinset).card
        ≤ (storeIds s).card + ([dep].toFinset).card := Finset.card_union_le _ _
      _ ≤ (storeIds s).card + 1 := by simp
  have := Nat.mul_le_mul_right (totalDeps s + 1) hcard
  simp only [List.length_singleton]
  omega

theorem would_create_cycle_iff (s : Store) (bug dep : Nat) :
    would_create_cycle s bug dep = some true ↔
      Relation.ReflTransGen (depEdge s) dep bug := by
  constructor
  · intro h
    refine wccF_sound (fun x hx => ?_) h
    rw [List.mem_singleton] at hx
    exact hx ▸ Relation.ReflTransGen.refl
  · intro h
    refine wccF_complete ?_ (by simp) (by simp) ⟨dep, Or.inr (by simp), h⟩
    unfold wccMeasure wccFuel
    have hcard : ((storeIds s ∪ [dep].toFinset) \ (∅ : Finset Nat)).card ≤
        (storeIds s).card + 1 := by
      rw [Finset.sdiff_empty]
      calc (storeIds s ∪ [dep].toFinset).card
          ≤ (storeIds s).card + ([dep].toFinset).card := Finset.card_union_le _ _
        _ ≤ (storeIds s).card + 1 := by simp
    have := Nat.mul_le_mul_right (totalDeps s + 1) hcard
    simp only [List.length_singleton]
    omega

-- ### Claim C10 — the cycle guard is total and tolerates dangling references

/-- **C10.** For every store (including stores whose `depends_on` lists
mention ids with no record) and every pair of ids, `would_create_cycle`
returns a boolean — never fails, never diverges, never panics — and that
boolean is `true` exactly when the candidate target reaches the subject
through the dependency edges of loadable issues (`depEdge` holds only for
issues whose record loads; an unloadable id has no outgoing edges). -/
theorem C10_would_create_cycle_total (s : Store) (bug dep : Nat) :
    (would_create_cycle s bug dep).isSome ∧
    (would_create_cycle s bug dep = some true ↔
      Relation.ReflTransGen (depEdge s) dep bug) :=
  ⟨would_create_cycle_isSome s bug dep, would_create_cycle_iff s bug dep⟩

-- ### Claims C1 and C2 — the MCP entry point skips the cycle guard

/-- **C1 (code bug).** In a store where issue 1 already depends on issue 2,
the CLI `depend` rejects the request "2 depends on 1" with a cycle error and
mutates nothing, as the claim demands — but the MCP `issues_depend` entry
point runs the identical mutation with no cycle check whatsoever: the same
request succeeds, committing the cycle-creating edge to both records. -/
theorem C1_mcp_depend_commits_cycle :
    Relation.ReflTransGen (depEdge [(1, ⟨[2], []⟩), (2, ⟨[], [1]⟩)]) 1 2 ∧
    depend [(1, ⟨[2], []⟩), (2, ⟨[], [1]⟩)] 2 [1] [] =
      .error (.cycleDetected 2 1) ∧
    mcpDepend [(1, ⟨[2], []⟩), (2, ⟨[], [1]⟩)] 2 [1] [] =
      .ok [(1, ⟨[2], [2]⟩), (2, ⟨[1], [1]⟩)] := by
  refine ⟨?_, by rfl, by rfl⟩
  exact Relation.ReflTransGen.single ⟨⟨[2], []⟩, by rfl, by simp⟩

/-- **C2 (code bug).** The cycle guard itself does flag a self-dependency
(`would_create_cycle 1 1 = true`), and the CLI entry point therefore rejects
"1 depends on 1" before any mutation — but the MCP `issues_depend` entry
point never consults the guard: the self-referential request succeeds and
commits `1 ∈ depends_on(1)`, violating invariant I1. -/
theorem C2_mcp_depend_allows_self_dependency :
    would_create_cycle [(1, ⟨[], []⟩)] 1 1 = some true ∧
    depend [(1, ⟨[], []⟩)] 1 [1] [] = .error (.cycleDetected 1 1) ∧
    mcpDepend [(1, ⟨[], []⟩)] 1 [1] [] = .ok [(1, ⟨[1], [1]⟩)] :=
  ⟨by rfl, by rfl, by rfl⟩

-- ### Claim C3 — the closure of the P7 diamond

/-- **C3 counterexample.** On the P7 diamond, the closure rooted at B(2) is
`[1,2,3,4]`: it contains C(3), because the search follows edges in both
directions from every reached node (B pulls in its dependent A, and A's
other dependency C).  The claimed value `{A,B,D} = [1,2,4]` is wrong. -/
theorem C3_closure_excludes_C_counterexample :
    get_dependency_closure diamondStore 2 = some [1, 2, 3, 4] ∧
    get_dependency_closure diamondStore 2 ≠ some [1, 2, 4] :=
  ⟨by rfl, by decide⟩

/-- **C3 (amended).** For the P7 diamond, the closure rooted at D(4) is
`{A,B,C,D}`, and the closure rooted at B(2) is the same full component
`{A,B,C,D}` (not `{A,B,D}`): the algorithm computes the weakly connected
component of its root. -/
theorem C3_closure_diamond :
    get_dependency_closure diamondStore 4 = some [1, 2, 3, 4] ∧
    get_dependency_closure diamondStore 2 = some [1, 2, 3, 4] :=
  ⟨by rfl, by rfl⟩

-- ### Helpers for no-op requests and concrete invariant checking

theorem IssueMetadata.eta_dep {m : IssueMetadata} {l : List Nat}
    (h : l = m.depends_on) : ({ m with depends_on := l } : IssueMetadata) = m := by
  cases m; cases h; rfl

theorem IssueMetadata.eta_blk {m : IssueMetadata} {l : List Nat}
    (h : l = m.blocks) : ({ m with blocks := l } : IssueMetadata) = m := by
  cases m; cases h; rfl

theorem update_issue_metadata_id {s : Store} {n : Nat} {m : IssueMetadata}
    {f : IssueMetadata → IssueMetadata}
    (hm : load_issue s n = some m) (hf : f m = m) :
    update_issue_metadata s n f = some s := by
  induction s with
  | nil => simp [load_issue] at hm
  | cons p rest ih =>
    obtain ⟨k, mk⟩ := p
    rw [load_issue_cons] at hm
    by_cases hk : k = n
    · rw [if_pos hk] at hm
      cases hm
      rw [update_issue_metadata, if_pos hk, hf]
    · rw [if_neg hk] at hm
      rw [update_issue_metadata, if_neg hk, ih hm]
      rfl

theorem checkAddsExist_ok {s : Store} {l : List Nat}
    (h : ∀ a ∈ l, (load_issue s a).isSome) : checkAddsExist s l = .ok () := by
  induction l with
  | nil => rfl
  | cons a rest ih =>
    have := h a (List.mem_cons_self _ _)
    rcases hl : load_issue s a with _ | m
    · rw [hl] at this; cases this
    · rw [checkAddsExist, hl]
      exact ih (fun x hx => h x (List.mem_cons_of_mem _ hx))

theorem checkCycles_ok {s : Store} {subject : Nat} {l : List Nat}
    (h : ∀ a ∈ l, would_create_cycle s subject a = some false) :
    checkCycles s subject l = .ok () := by
  induction l with
  | nil => rfl
  | cons a rest ih =>
    rw [checkCycles, h a (List.mem_cons_self _ _)]
    exact ih (fun x hx => h x (List.mem_cons_of_mem _ hx))

theorem acyclic_of_rank {s : Store} (rank : Nat → Nat)
    (h : ∀ x y, depEdge s x y → rank y < rank x) : Acyclic s := by
  intro x hx
  have step : ∀ a b, Relation.TransGen (depEdge s) a b → rank b < rank a := by
    intro a b htg
    induction htg with
    | single he => exact h _ _ he
    | tail _ he ih => exact Nat.lt_trans (h _ _ he) ih
  exact absurd (step x x hx) (Nat.lt_irrefl _)

/-- Package the data-model invariants for a concrete store: every premise
here is decidable, so examples discharge them by `decide`. -/
theorem storeWF_of (s : Store) (rank : Nat → Nat)
    (hlists : ∀ p ∈ s, p.2.depends_on.Sorted (· ≤ ·) ∧ p.2.depends_on.Nodup ∧
      p.2.blocks.Sorted (· ≤ ·) ∧ p.2.blocks.Nodup)
    (hsym : ∀ p ∈ s, ∀ q ∈ s, (q.1 ∈ p.2.depends_on ↔ p.1 ∈ q.2.blocks))
    (hrank : ∀ p ∈ s, ∀ y ∈ p.2.depends_on, rank y < rank p.1) :
    StoreWF s := by
  refine ⟨?_, blocksSymmetric_of_entries hsym, acyclic_of_rank rank ?_⟩
  · intro n m hm
    exact hlists (n, m) (load_issue_mem hm)
  · rintro x y ⟨m, hm, hy⟩
    exact hrank (x, m) (load_issue_mem hm) y hy

theorem addFold_of_mem {add_nums l : List Nat} (h : ∀ a ∈ add_nums, a ∈ l) :
    add_nums.foldl (fun d a => if a ∈ d then d else d ++ [a]) l = l := by
  induction add_nums with
  | nil => rfl
  | cons a rest ih =>
    rw [List.foldl_cons, if_pos (h a (List.mem_cons_self _ _))]
    exact ih (fun x hx => h x (List.mem_cons_of_mem _ hx))

theorem wcc_false_of_acyclic {s : Store} {subject a : Nat}
    (hacyc : Acyclic s) (hedge : depEdge s subject a) :
    would_create_cycle s subject a = some false := by
  have hs := would_create_cycle_isSome s subject a
  rcases hb : would_create_cycle s subject a with _ | b
  · rw [hb] at hs; cases hs
  · cases b
    · rfl
    · exfalso
      have hrtg := (would_create_cycle_iff s subject a).mp hb
      exact hacyc subject (Relation.TransGen.head' hedge hrtg)

theorem addBlocksAll_id {s : Store} {subject : Nat} {l : List Nat}
    (h : ∀ a ∈ l, ∃ ma, load_issue s a = some ma ∧ addBlocksMeta subject ma = ma) :
    addBlocksAll s subject l = .ok s := by
  induction l with
  | nil => rfl
  | cons a rest ih =>
    obtain ⟨ma, hma, hfix⟩ := h a (List.mem_cons_self _ _)
    rw [addBlocksAll, update_issue_metadata_id hma hfix]
    exact ih (fun x hx => h x (List.mem_cons_of_mem _ hx))

theorem removeBlocksAll_id {s : Store} {subject : Nat} {l : List Nat}
    (h : ∀ r ∈ l, ∃ mr, load_issue s r = some mr ∧ removeBlocksMeta subject mr = mr) :
    removeBlocksAll s subject l = .ok s := by
  induction l with
  | nil => rfl
  | cons r rest ih =>
    obtain ⟨mr, hmr, hfix⟩ := h r (List.mem_cons_self _ _)
    rw [removeBlocksAll, update_issue_metadata_id hmr hfix]
    exact ih (fun x hx => h x (List.mem_cons_of_mem _ hx))

-- ### Claim C9 — no-op adds and removes (corrected)

/-- **C9 counterexample.** The claim fails on stores as they can actually
be: removing an id that is absent from the subject's `depends_on` *and has
no record* makes the reverse-edge update fail, so the request raises an
error through both entry points (the first conjunct shows 2 is indeed
absent from issue 1's lists and from the store). -/
theorem C9_noop_error_counterexample :
    load_issue [(1, ⟨[], []⟩)] 2 = none ∧
    depend [(1, ⟨[], []⟩)] 1 [] [2] = .error (.writeFailed 2) ∧
    mcpDepend [(1, ⟨[], []⟩)] 1 [] [2] = .error (.writeFailed 2) :=
  ⟨by rfl, by rfl, by rfl⟩

/-- **C9 (amended).** On a store satisfying the data-model invariants
(sorted duplicate-free lists, symmetry I2, acyclicity I3), a `depend`
request whose added ids are already present in the subject's `depends_on`
and whose removed ids are absent from it — all referring to existing
issues — succeeds through both entry points and returns the store entirely
unchanged. -/
theorem C9_noop_requests (s : Store) (subject : Nat)
    (add_nums remove_nums : List Nat) (msubj : IssueMetadata)
    (hwf : StoreWF s)
    (hsubj : load_issue s subject = some msubj)
    (haddmem : ∀ a ∈ add_nums, a ∈ msubj.depends_on)
    (haddload : ∀ a ∈ add_nums, (load_issue s a).isSome)
    (hremmem : ∀ r ∈ remove_nums, r ∉ msubj.depends_on)
    (hremload : ∀ r ∈ remove_nums, (load_issue s r).isSome) :
    depend s subject add_nums remove_nums = .ok s ∧
    mcpDepend s subject add_nums remove_nums = .ok s := by
  obtain ⟨hlists, hsym, hacyc⟩ := hwf
  have hmutfix : applyDependMeta add_nums remove_nums msubj = msubj := by
    unfold applyDependMeta
    refine IssueMetadata.eta_dep ?_
    rw [addFold_of_mem haddmem,
      List.filter_eq_self.mpr (fun d hd => by
        simpa using fun hr => hremmem d hr hd),
      ((hlists subject msubj hsubj).1).insertionSort_eq]
  have haddid : addBlocksAll s subject add_nums = .ok s := by
    refine addBlocksAll_id (fun a ha => ?_)
    rcases hload : load_issue s a with _ | ma
    · exact absurd (haddload a ha) (by simp [hload])
    · refine ⟨ma, rfl, ?_⟩
      unfold addBlocksMeta
      refine IssueMetadata.eta_blk ?_
      have hin : subject ∈ ma.blocks :=
        (hsym subject a msubj ma hsubj hload).mp (haddmem a ha)
      rw [if_pos hin, ((hlists a ma hload).2.2.1).insertionSort_eq]
  have hremid : removeBlocksAll s subject remove_nums = .ok s := by
    refine removeBlocksAll_id (fun r hr => ?_)
    rcases hload : load_issue s r with _ | mr
    · exact absurd (hremload r hr) (by simp [hload])
    · refine ⟨mr, rfl, ?_⟩
      unfold removeBlocksMeta
      refine IssueMetadata.eta_blk ?_
      have hnotin : subject ∉ mr.blocks := fun hin =>
        hremmem r hr ((hsym subject r msubj mr hsubj hload).mpr hin)
      refine List.filter_eq_self.mpr (fun b hb => ?_)
      simp only [ne_eq, decide_eq_true_eq]
      intro hbs
      exact hnotin (hbs ▸ hb)
  have hmut : dependMutate s subject add_nums remove_nums = .ok s := by
    unfold dependMutate
    rw [update_issue_metadata_id hsubj hmutfix]
    simp only [haddid, hremid]
  have hguard : checkCycles s subject add_nums = .ok () :=
    checkCycles_ok (fun a ha =>
      wcc_false_of_acyclic hacyc ⟨msubj, hsubj, haddmem a ha⟩)
  have hexist : checkAddsExist s add_nums = .ok () := checkAddsExist_ok haddload
  constructor
  · unfold depend
    rw [hexist, hguard]
    exact hmut
  · unfold mcpDepend
    rw [hexist]
    exact hmut

/-- Witness for the amended C9: on an invariant-satisfying store where
issue 1 depends on issue 2, re-adding 2 and removing the absent 3 changes
nothing and raises no error. -/
theorem C9_noop_requests_witness :
    depend [(1, ⟨[2], []⟩), (2, ⟨[], [1]⟩), (3, ⟨[], []⟩)] 1 [2] [3] =
      .ok [(1, ⟨[2], []⟩), (2, ⟨[], [1]⟩), (3, ⟨[], []⟩)] ∧
    mcpDepend [(1, ⟨[2], []⟩), (2, ⟨[], [1]⟩), (3, ⟨[], []⟩)] 1 [2] [3] =
      .ok [(1, ⟨[2], []⟩), (2, ⟨[], [1]⟩), (3, ⟨[], []⟩)] :=
  C9_noop_requests _ 1 [2] [3] ⟨[2], []⟩
    (storeWF_of _ (fun x => if x = 1 then 1 else 0)
      (by decide) (by decide) (by decide))
    (by rfl) (by decide) (by decide) (by decide) (by decide)

-- ### Properties of the layer scheduler

theorem length_filter_lt_of_mem {l : List Nat} {p : Nat → Bool} {x : Nat}
    (hx : x ∈ l) (hp : p x = false) : (l.filter p).length < l.length := by
  induction l with
  | nil => simp at hx
  | cons a as ih =>
    rcases List.mem_cons.mp hx with h | h
    · subst h
      simp only [List.filter_cons, hp, cond_false]
      calc (as.filter p).length ≤ as.length := as.length_filter_le p
        _ < as.length + 1 := Nat.lt_succ_self _
    · by_cases ha : p a
      · simpa [List.filter_cons, ha] using Nat.succ_lt_succ (ih h)
      · simp only [List.filter_cons, ha, cond_false]
        calc (as.filter p).length < as.length := ih h
          _ < as.length + 1 := Nat.lt_succ_self _

theorem exists_no_succ {e : Nat → Nat → Prop} (S : Finset Nat) :
    S.Nonempty →
    (∀ a ∈ S, ∀ b, e a b → b ∈ S) →
    (∀ x, ¬ Relation.TransGen e x x) →
    ∃ m ∈ S, ∀ d, ¬ e m d := by
  classical
  induction S using Finset.strongInduction with
  | _ S ih =>
    intro hne hclosed hacyc
    obtain ⟨x, hx⟩ := hne
    by_cases hsucc : ∀ d, ¬ e x d
    · exact ⟨x, hx, hsucc⟩
    · push_neg at hsucc
      obtain ⟨y, hy⟩ := hsucc
      set T := S.filter (fun z => Relation.TransGen e x z) with hT
      have hyT : y ∈ T := by
        rw [hT, Finset.mem_filter]
        exact ⟨hclosed x hx y hy, Relation.TransGen.single hy⟩
      have hxT : x ∉ T := by
        rw [hT, Finset.mem_filter]
        rintro ⟨-, hcyc⟩
        exact hacyc x hcyc
      have hTS : T ⊂ S :=
        Finset.ssubset_iff_of_subset (Finset.filter_subset _ _) |>.mpr
          ⟨x, hx, hxT⟩
      have hclosedT : ∀ a ∈ T, ∀ b, e a b → b ∈ T := by
        intro a ha b hab
        rw [hT, Finset.mem_filter] at ha ⊢
        exact ⟨hclosed a ha.1 b hab, ha.2.tail hab⟩
      obtain ⟨m, hm, hnos⟩ := ih T hTS ⟨y, hyT⟩ hclosedT hacyc
      exact ⟨m, (Finset.filter_subset _ _) hm, hnos⟩

theorem layersF_sorted {s : Store} {ids : List Nat} :
    ∀ {fuel : Nat} {assigned : Finset Nat} {remaining : List Nat}
      {ls : List (List Nat)},
      layersF s ids fuel assigned remaining = some ls →
      ∀ l ∈ ls, l.Sorted (· ≤ ·) := by
  intro fuel
  induction fuel with
  | zero => intro _ _ _ h; cases h
  | succ fuel ih =>
    intro assigned remaining ls h l hl
    match remaining with
    | [] =>
      simp only [layersF] at h
      cases h
      simp at hl
    | r0 :: rrest =>
      simp only [layersF] at h
      rcases hrec : layersF s ids fuel _ _ with _ | ls'
      · rw [hrec] at h; cases h
      · rw [hrec] at h
        simp only [Option.map_some', Option.some.injEq] at h
        subst h
        rcases List.mem_cons.mp hl with h | h
        · exact h ▸ List.sorted_insertionSort _ _
        · exact ih hrec l h

theorem layersF_cons {s : Store} {ids : List Nat} {fuel : Nat} {A : Finset Nat}
    {r0 : Nat} {rrest : List Nat} :
    layersF s ids (fuel + 1) A (r0 :: rrest) =
      (layersF s ids fuel (A ∪ (scanLayer s ids A (r0 :: rrest)).toFinset)
        ((r0 :: rrest).filter (fun id =>
          decide (id ∉ A ∪ (scanLayer s ids A (r0 :: rrest)).toFinset)))).map
      (fun ls => (scanLayer s ids A (r0 :: rrest)).insertionSort (· ≤ ·) :: ls) := rfl

theorem scanLayer_subset {s : Store} {ids : List Nat} {A : Finset Nat}
    {R : List Nat} : ∀ x ∈ scanLayer s ids A R, x ∈ R := by
  intro x hx
  unfold scanLayer at hx
  split at hx
  · exact hx
  · exact List.mem_of_mem_filter hx

theorem scanLayer_ne_nil {s : Store} {ids : List Nat} {A : Finset Nat}
    {R : List Nat} (hR : R ≠ []) : scanLayer s ids A R ≠ [] := by
  unfold scanLayer
  split
  · exact hR
  · assumption

theorem scan_filter_perm {s : Store} {ids : List Nat} {A : Finset Nat}
    {R : List Nat} (hdisj : ∀ x ∈ R, x ∉ A) :
    (scanLayer s ids A R ++
      R.filter (fun id => decide (id ∉ A ∪ (scanLayer s ids A R).toFinset))).Perm R := by
  by_cases he : eligibleLayer s ids A R = []
  · have hL : scanLayer s ids A R = R := by rw [scanLayer, if_pos he]
    rw [hL]
    have : R.filter (fun id => decide (id ∉ A ∪ R.toFinset)) = [] := by
      rw [List.filter_eq_nil_iff]
      intro a ha
      simp only [decide_eq_true_eq, Decidable.not_not]
      exact Finset.mem_union_right _ (List.mem_toFinset.mpr ha)
    rw [this, List.append_nil]
  · have hL : scanLayer s ids A R = eligibleLayer s ids A R := by
      rw [scanLayer, if_neg he]
    rw [hL]
    set p : Nat → Bool := fun id =>
      match load_issue s id with
      | some m => m.depends_on.all (fun dep => decide (dep ∈ A ∨ dep ∉ ids))
      | none => false with hp
    have helig : eligibleLayer s ids A R = R.filter p := rfl
    have hfc : R.filter (fun id =>
        decide (id ∉ A ∪ (eligibleLayer s ids A R).toFinset)) =
        R.filter (fun id => !(p id)) := by
      refine List.filter_congr ?_
      intro x hx
      have hmem : x ∈ eligibleLayer s ids A R ↔ p x = true := by
        rw [helig, List.mem_filter]
        simp [hx]
      by_cases hpx : p x = true
      · have hxu : x ∈ A ∪ (eligibleLayer s ids A R).toFinset :=
          Finset.mem_union_right _ (List.mem_toFinset.mpr (hmem.mpr hpx))
        simp [hxu, hpx]
      · have hxL : x ∉ eligibleLayer s ids A R := fun h => hpx (hmem.mp h)
        have hxu : x ∉ A ∪ (eligibleLayer s ids A R).toFinset := by
          simp only [Finset.mem_union, List.mem_toFinset]
          push_neg
          exact ⟨hdisj x hx, hxL⟩
        simp [hxu, hpx]
    rw [hfc, helig]
    exact List.filter_append_perm p R

theorem layersF_join_perm {s : Store} {ids : List Nat} :
    ∀ {fuel : Nat} {assigned : Finset Nat} {remaining : List Nat},
      remaining.length < fuel → (∀ x ∈ remaining, x ∉ assigned) →
      ∃ ls, layersF s ids fuel assigned remaining = some ls ∧
        ls.flatten.Perm remaining := by
  intro fuel
  induction fuel with
  | zero => intro A R h _; exact absurd h (Nat.not_lt_zero _)
  | succ fuel ih =>
    intro A R hfuel hdisj
    match R with
    | [] => exact ⟨[], rfl, List.Perm.refl _⟩
    | r0 :: rrest =>
      have hLne : scanLayer s ids A (r0 :: rrest) ≠ [] := scanLayer_ne_nil (by simp)
      obtain ⟨y, hy⟩ := List.exists_mem_of_ne_nil _ hLne
      have hyR : y ∈ r0 :: rrest := scanLayer_subset y hy
      have hylost : (decide (y ∉ A ∪ (scanLayer s ids A (r0 :: rrest)).toFinset)) =
          false := by
        simp only [decide_eq_false_iff_not, Decidable.not_not]
        exact Finset.mem_union_right _ (List.mem_toFinset.mpr hy)
      have hlen : ((r0 :: rrest).filter (fun id =>
          decide (id ∉ A ∪ (scanLayer s ids A (r0 :: rrest)).toFinset))).length <
          (r0 :: rrest).length := length_filter_lt_of_mem hyR hylost
      have hdisj' : ∀ x ∈ (r0 :: rrest).filter (fun id =>
          decide (id ∉ A ∪ (scanLayer s ids A (r0 :: rrest)).toFinset)),
          x ∉ A ∪ (scanLayer s ids A (r0 :: rrest)).toFinset := by
        intro x hx
        have := (List.mem_filter.mp hx).2
        simpa using this
      obtain ⟨ls', hrec, hperm⟩ :=
        ih (Nat.lt_of_lt_of_le hlen (Nat.lt_succ_iff.mp hfuel)) hdisj'
      refine ⟨(scanLayer s ids A (r0 :: rrest)).insertionSort (· ≤ ·) :: ls', ?_, ?_⟩
      · rw [layersF_cons, hrec]
        rfl
      · simp only [List.flatten_cons]
        exact List.Perm.trans
          (List.Perm.append (List.perm_insertionSort _ _) hperm)
          (scan_filter_perm hdisj)

theorem layersF_prop {s : Store} {ids : List Nat} (hacyc : AcyclicOn s ids) :
    ∀ {fuel : Nat} {assigned : Finset Nat} {remaining : List Nat},
      remaining.length < fuel →
      (∀ x ∈ remaining, x ∉ assigned) →
      (∀ x ∈ remaining, x ∈ ids) →
      (∀ x ∈ remaining, (load_issue s x).isSome) →
      (∀ x ∈ ids, x ∈ assigned ∨ x ∈ remaining) →
      ∃ ls, layersF s ids fuel assigned remaining = some ls ∧
        layersProp s ids assigned ls := by
  intro fuel
  induction fuel with
  | zero => intro A R h _ _ _ _; exact absurd h (Nat.not_lt_zero _)
  | succ fuel ih =>
    intro A R hfuel hdisj hsub hload hpart
    match R with
    | [] => exact ⟨[], rfl, trivial⟩
    | r0 :: rrest =>
      -- an acyclic working set always has an eligible id: take a node of
      -- the remaining set with no dependency edge into the remaining set
      obtain ⟨mnode, hmS, hnos⟩ :=
        exists_no_succ (e := fun a b =>
            a ∈ (r0 :: rrest) ∧ b ∈ (r0 :: rrest) ∧ depEdge s a b)
          (r0 :: rrest).toFinset
          ⟨r0, by simp⟩
          (fun a _ b hab => List.mem_toFinset.mpr hab.2.1)
          (fun x hx => hacyc x (Relation.TransGen.mono
            (fun a b hab => ⟨hab.2.2, hsub a hab.1, hsub b hab.2.1⟩) hx))
      have hmR : mnode ∈ r0 :: rrest := List.mem_toFinset.mp hmS
      rcases hmm : load_issue s mnode with _ | mm
      · exact absurd (hload mnode hmR) (by simp [hmm])
      have hmelig : mnode ∈ eligibleLayer s ids A (r0 :: rrest) := by
        rw [eligibleLayer, List.mem_filter]
        refine ⟨hmR, ?_⟩
        rw [hmm]
        rw [List.all_eq_true]
        intro dep hdep
        rw [decide_eq_true_eq]
        by_cases hdi : dep ∈ ids
        · rcases hpart dep hdi with h | h
          · exact Or.inl h
          · exact absurd ⟨hmR, h, mm, hmm, hdep⟩ (hnos dep)
        · exact Or.inr hdi
      have he : eligibleLayer s ids A (r0 :: rrest) ≠ [] := by
        intro hnil
        rw [hnil] at hmelig
        cases hmelig
      have hLe : scanLayer s ids A (r0 :: rrest) = eligibleLayer s ids A (r0 :: rrest) := by
        rw [scanLayer, if_neg he]
      -- recurse
      have hLne : scanLayer s ids A (r0 :: rrest) ≠ [] := scanLayer_ne_nil (by simp)
      obtain ⟨y, hy⟩ := List.exists_mem_of_ne_nil _ hLne
      have hyR : y ∈ r0 :: rrest := scanLayer_subset y hy
      have hylost : (decide (y ∉ A ∪ (scanLayer s ids A (r0 :: rrest)).toFinset)) =
          false := by
        simp only [decide_eq_false_iff_not, Decidable.not_not]
        exact Finset.mem_union_right _ (List.mem_toFinset.mpr hy)
      have hlen : ((r0 :: rrest).filter (fun id =>
          decide (id ∉ A ∪ (scanLayer s ids A (r0 :: rrest)).toFinset))).length <
          (r0 :: rrest).length := length_filter_lt_of_mem hyR hylost
      have hdisj' : ∀ x ∈ (r0 :: rrest).filter (fun id =>
          decide (id ∉ A ∪ (scanLayer s ids A (r0 :: rrest)).toFinset)),
          x ∉ A ∪ (scanLayer s ids A (r0 :: rrest)).toFinset := by
        intro x hx
        have := (List.mem_filter.mp hx).2
        simpa using this
      have hsub' : ∀ x ∈ (r0 :: rrest).filter (fun id =>
          decide (id ∉ A ∪ (scanLayer s ids A (r0 :: rrest)).toFinset)), x ∈ ids :=
        fun x hx => hsub x (List.mem_of_mem_filter hx)
      have hload' : ∀ x ∈ (r0 :: rrest).filter (fun id =>
          decide (id ∉ A ∪ (scanLayer s ids A (r0 :: rrest)).toFinset)),
          (load_issue s x).isSome :=
        fun x hx => hload x (List.mem_of_mem_filter hx)
      have hpart' : ∀ x ∈ ids, x ∈ A ∪ (scanLayer s ids A (r0 :: rrest)).toFinset ∨
          x ∈ (r0 :: rrest).filter (fun id =>
            decide (id ∉ A ∪ (scanLayer s ids A (r0 :: rrest)).toFinset)) := by
        intro x hxi
        rcases hpart x hxi with h | h
        · exact Or.inl (Finset.mem_union_left _ h)
        · by_cases hu : x ∈ A ∪ (scanLayer s ids A (r0 :: rrest)).toFinset
          · exact Or.inl hu
          · exact Or.inr (List.mem_filter.mpr ⟨h, by simpa using hu⟩)
      obtain ⟨ls', hrec, hprop⟩ :=
        ih (Nat.lt_of_lt_of_le hlen (Nat.lt_succ_iff.mp hfuel)) hdisj' hsub' hload' hpart'
      refine ⟨(scanLayer s ids A (r0 :: rrest)).insertionSort (· ≤ ·) :: ls', ?_, ?_, ?_⟩
      · rw [layersF_cons, hrec]
        rfl
      · -- every node of the emitted layer has its in-set deps in `assigned`
        intro n hn m hm d hd hdi
        have hnL : n ∈ eligibleLayer s ids A (r0 :: rrest) := by
          rw [← hLe]
          exact (List.perm_insertionSort _ _).mem_iff.mp hn
        have := (List.mem_filter.mp (hLe ▸ hnL : n ∈ eligibleLayer s ids A (r0 :: rrest))).2
        rw [eligibleLayer, List.mem_filter] at hnL
        have hpred := hnL.2
        rw [hm, List.all_eq_true] at hpred
        have := hpred d hd
        rw [decide_eq_true_eq] at this
        rcases this with h | h
        · exact h
        · exact absurd hdi h
      · -- the tail satisfies the property over assigned ∪ layer
        rwa [List.toFinset_eq_of_perm _ _ (List.perm_insertionSort _ _)]

theorem layersProp_lt {s : Store} {ids : List Nat} :
    ∀ {ls : List (List Nat)} {A : Finset Nat}, layersProp s ids A ls →
      ∀ i l, ls[i]? = some l → ∀ n ∈ l, ∀ m, load_issue s n = some m →
        ∀ d ∈ m.depends_on, d ∈ ids →
          d ∈ A ∨ ∃ j : Nat, j < i ∧ ∃ lj : List Nat, ls[j]? = some lj ∧ d ∈ lj := by
  intro ls
  induction ls with
  | nil => intro A _ i l hl; simp at hl
  | cons l0 rest ih =>
    intro A hprop i l hl n hn m hm d hd hdi
    obtain ⟨hhead, htail⟩ := hprop
    match i with
    | 0 =>
      simp only [List.getElem?_cons_zero, Option.some.injEq] at hl
      exact Or.inl (hhead n (hl ▸ hn) m hm d hd hdi)
    | i + 1 =>
      have hl' : rest[i]? = some l := by simpa using hl
      rcases ih htail i l hl' n hn m hm d hd hdi with h | ⟨j, hj, lj, hlj, hdlj⟩
      · rcases Finset.mem_union.mp h with h | h
        · exact Or.inl h
        · exact Or.inr ⟨0, Nat.succ_pos _, l0, by simp, List.mem_toFinset.mp h⟩
      · exact Or.inr ⟨j + 1, Nat.succ_lt_succ hj, lj, by simpa using hlj, hdlj⟩

theorem no_transGen_cycle_of_rank {r : Nat → Nat → Prop} (rank : Nat → Nat)
    (h : ∀ x y, r x y → rank y < rank x) : ∀ x, ¬ Relation.TransGen r x x := by
  intro x hx
  have step : ∀ a b, Relation.TransGen r a b → rank b < rank a := by
    intro a b htg
    induction htg with
    | single he => exact h _ _ he
    | tail _ he ih => exact Nat.lt_trans (h _ _ he) ih
  exact absurd (step x x hx) (Nat.lt_irrefl _)

-- ### Claim C8 — correctness of the layer computation on acyclic inputs

/-- **C8.** For every working set whose ids all have records and whose
`depends_on` relation restricted to the set is acyclic, `compute_graph_layers`
partitions the ids (the concatenation of the layers is a permutation of the
input), sorts each layer ascending, and places every in-working-set
dependency of a layer-`i` node in a strictly earlier layer; in particular
for A(1) depends on B(2) depends on C(3) the layers are `[[3],[2],[1]]`
(C in layer 0, B in layer 1, A in layer 2). -/
theorem C8_layers_partition (s : Store) (ids : List Nat)
    (hload : ∀ x ∈ ids, (load_issue s x).isSome) (hacyc : AcyclicOn s ids) :
    (∃ ls, compute_graph_layers s ids = some ls ∧
      ls.flatten.Perm ids ∧
      (∀ l ∈ ls, l.Sorted (· ≤ ·)) ∧
      (∀ i l, ls[i]? = some l → ∀ n ∈ l, ∀ m, load_issue s n = some m →
        ∀ d ∈ m.depends_on, d ∈ ids →
          ∃ j : Nat, j < i ∧ ∃ lj : List Nat, ls[j]? = some lj ∧ d ∈ lj)) ∧
    compute_graph_layers chainStore [1, 2, 3] = some [[3], [2], [1]] := by
  constructor
  · obtain ⟨ls, hls, hperm⟩ :=
      @layersF_join_perm s ids (ids.length + 1) ∅ ids
        (Nat.lt_succ_self _) (by simp)
    obtain ⟨ls2, hls2, hprop⟩ :=
      @layersF_prop s ids hacyc (ids.length + 1) ∅ ids
        (Nat.lt_succ_self _) (by simp) (fun x hx => hx) hload
        (fun x hx => Or.inr hx)
    rw [hls] at hls2
    cases hls2
    refine ⟨ls, hls, hperm, layersF_sorted hls, ?_⟩
    intro i l hl n hn m hm d hd hdi
    rcases layersProp_lt hprop i l hl n hn m hm d hd hdi with h | h
    · exact absurd h (Finset.not_mem_empty _)
    · exact h
  · rfl

/-- Witness for C8 at the concrete chain 1 → 2 → 3. -/
theorem C8_layers_partition_witness :
    (∃ ls, compute_graph_layers chainStore [1, 2, 3] = some ls ∧
      ls.flatten.Perm [1, 2, 3] ∧
      (∀ l ∈ ls, l.Sorted (· ≤ ·)) ∧
      (∀ i l, ls[i]? = some l → ∀ n ∈ l, ∀ m, load_issue chainStore n = some m →
        ∀ d ∈ m.depends_on, d ∈ [1, 2, 3] →
          ∃ j : Nat, j < i ∧ ∃ lj : List Nat, ls[j]? = some lj ∧ d ∈ lj)) ∧
    compute_graph_layers chainStore [1, 2, 3] = some [[3], [2], [1]] := by
  refine C8_layers_partition chainStore [1, 2, 3] (by decide) ?_
  refine no_transGen_cycle_of_rank (fun x => 3 - x) ?_
  rintro x y ⟨⟨m, hm, hy⟩, hxi, hyi⟩
  have hmem := load_issue_mem hm
  simp only [chainStore, List.mem_cons, List.not_mem_nil, or_false] at hmem
  rcases hmem with h | h | h
  · injection h with h1 h2
    subst h1; subst h2
    simp only [List.mem_singleton] at hy
    subst hy
    decide
  · injection h with h1 h2
    subst h1; subst h2
    simp only [List.mem_singleton] at hy
    subst hy
    decide
  · injection h with h1 h2
    subst h1; subst h2
    simp at hy

-- ### Totality of the critical-path search

theorem mem_storeKeys {s : Store} {p : Nat × IssueMetadata} (h : p ∈ s) :
    p.1 ∈ storeKeys s :=
  List.mem_toFinset.mpr (List.mem_map.mpr ⟨p, h, rfl⟩)

theorem find_chain_total {s : Store} :
    ∀ {fuel issue_id : Nat} {visited : Finset Nat} {chain longest : List Nat},
      (storeKeys s \ visited).card < fuel →
      (issue_id ∈ storeKeys s ∨ issue_id ∈ visited) →
      longest.Nodup → chain.Nodup → (∀ x ∈ chain, x ∈ visited) →
      ∃ lg, find_chain s fuel issue_id visited chain longest = some lg ∧ lg.Nodup := by
  intro fuel
  induction fuel with
  | zero => intro _ _ _ _ h _ _ _ _; exact absurd h (Nat.not_lt_zero _)
  | succ fuel ih =>
    intro issue_id visited chain longest hfuel hid hlnd hcnd hcv
    by_cases hv : issue_id ∈ visited
    · exact ⟨longest, by rw [find_chain, if_pos hv], hlnd⟩
    · have hkey : issue_id ∈ storeKeys s := hid.resolve_right hv
      have hnotchain : issue_id ∉ chain := fun h => hv (hcv issue_id h)
      have hchain' : (chain ++ [issue_id]).Nodup := by
        rw [List.nodup_append]
        exact ⟨hcnd, List.nodup_singleton _, by simpa using hnotchain⟩
      have hsub' : ∀ x ∈ chain ++ [issue_id], x ∈ insert issue_id visited := by
        intro x hx
        rcases List.mem_append.mp hx with h | h
        · exact Finset.mem_insert_of_mem (hcv x h)
        · rw [List.mem_singleton] at h
          exact h ▸ Finset.mem_insert_self _ _
      have hfuel' : (storeKeys s \ insert issue_id visited).card < fuel := by
        have hcd : (storeKeys s \ insert issue_id visited).card + 1 ≤
            (storeKeys s \ visited).card := by
          have hmem : issue_id ∈ storeKeys s \ visited :=
            Finset.mem_sdiff.mpr ⟨hkey, hv⟩
          have hsub : storeKeys s \ insert issue_id visited ⊆
              (storeKeys s \ visited).erase issue_id := by
            intro x hx
            rw [Finset.mem_sdiff, Finset.mem_insert] at hx
            push_neg at hx
            rw [Finset.mem_erase, Finset.mem_sdiff]
            exact ⟨hx.2.1, hx.1, hx.2.2⟩
          have hle := Finset.card_le_card hsub
          rw [Finset.card_erase_of_mem hmem] at hle
          have hpos : 0 < (storeKeys s \ visited).card :=
            Finset.card_pos.mpr ⟨_, hmem⟩
          omega
        omega
      have hfold : ∀ (ps : List (Nat × IssueMetadata)),
          (∀ p ∈ ps, p.1 ∈ storeKeys s) →
          ∀ lg : List Nat, lg.Nodup →
          ∃ lg', ps.foldlM (fun lg p =>
              find_chain s fuel p.1 (insert issue_id visited) (chain ++ [issue_id]) lg)
            lg = some lg' ∧ lg'.Nodup := by
        intro ps
        induction ps with
        | nil => intro _ lg hlg; exact ⟨lg, rfl, hlg⟩
        | cons p rest ihp =>
          intro hps lg hlg
          obtain ⟨lg1, h1, hnd1⟩ :=
            ih hfuel' (Or.inl (hps p (List.mem_cons_self _ _))) hlg hchain' hsub'
          obtain ⟨lg', h2, hnd'⟩ :=
            ihp (fun q hq => hps q (List.mem_cons_of_mem _ hq)) lg1 hnd1
          refine ⟨lg', ?_, hnd'⟩
          rw [List.foldlM_cons, h1]
          exact h2
      have hlongest' : (if longest.length < (chain ++ [issue_id]).length
          then chain ++ [issue_id] else longest).Nodup := by
        split
        · exact hchain'
        · exact hlnd
      obtain ⟨lg, hlg, hnd⟩ :=
        hfold (s.filter (fun p => decide (issue_id ∈ p.2.depends_on)))
          (fun p hp => mem_storeKeys (List.mem_of_mem_filter hp)) _ hlongest'
      refine ⟨lg, ?_, hnd⟩
      rw [find_chain, if_neg hv]
      exact hlg

theorem critical_path_chain_total (s : Store) :
    ∃ ch, critical_path_chain s = some ch ∧ ch.Nodup := by
  have hcard : (storeKeys s \ (∅ : Finset Nat)).card < chainFuel s := by
    rw [Finset.sdiff_empty]
    unfold chainFuel storeKeys
    calc ((s.map (fun p => p.1)).toFinset).card ≤ (s.map (fun p => p.1)).length :=
        List.toFinset_card_le _
      _ = s.length := List.length_map _ _
      _ < s.length + 1 := Nat.lt_succ_self _
  have hfold : ∀ (ps : List (Nat × IssueMetadata)),
      (∀ p ∈ ps, p.1 ∈ storeKeys s) →
      ∀ lg : List Nat, lg.Nodup →
      ∃ ch, ps.foldlM (fun longest p =>
          find_chain s (chainFuel s) p.1 ∅ [] longest) lg = some ch ∧ ch.Nodup := by
    intro ps
    induction ps with
    | nil => intro _ lg hlg; exact ⟨lg, rfl, hlg⟩
    | cons p rest ihp =>
      intro hps lg hlg
      obtain ⟨lg1, h1, hnd1⟩ :=
        find_chain_total hcard (Or.inl (hps p (List.mem_cons_self _ _))) hlg
          List.nodup_nil (by simp)
      obtain ⟨ch, h2, hnd⟩ :=
        ihp (fun q hq => hps q (List.mem_cons_of_mem _ hq)) lg1 hnd1
      refine ⟨ch, ?_, hnd⟩
      rw [List.foldlM_cons, h1]
      exact h2
  exact hfold s (fun p hp => mem_storeKeys hp) [] List.nodup_nil

-- ### Totality and well-formedness of the cycle detector

theorem popScc_of_mem {v : Nat} :
    ∀ {stack : List Nat} {onSt : Finset Nat} {acc : List Nat},
      v ∈ stack →
      ∃ scc stack' onSt' p, popScc v stack onSt acc = some (scc, stack', onSt') ∧
        stack = p ++ v :: stack' ∧ v ∉ p := by
  intro stack
  induction stack with
  | nil => intro _ _ h; simp at h
  | cons w rest ihs =>
    intro onSt acc hv
    by_cases hw : w = v
    · subst hw
      exact ⟨acc ++ [w], rest, onSt.erase w, [],
        by rw [popScc, if_pos rfl], by simp, by simp⟩
    · have hvr : v ∈ rest := by
        rcases List.mem_cons.mp hv with h | h
        · exact absurd h.symm hw
        · exact h
      obtain ⟨scc, stack', onSt', p, heq, hsplit, hnv⟩ := ihs hvr
      refine ⟨scc, stack', onSt', w :: p, ?_, ?_, ?_⟩
      · rw [popScc, if_neg hw]
        exact heq
      · rw [List.cons_append, hsplit]
      · intro h
        rcases List.mem_cons.mp h with h | h
        · exact hw h.symm
        · exact hnv h

theorem stack_suffix_of_split {v : Nat} :
    ∀ {p : List Nat} {q r t : List Nat}, v ∉ p → p ++ v :: q = r ++ v :: t →
      ∃ u, q = u ++ t := by
  intro p
  induction p with
  | nil =>
    intro q r t _ h
    rw [List.nil_append] at h
    cases r with
    | nil =>
      rw [List.nil_append] at h
      cases h
      exact ⟨[], rfl⟩
    | cons b rs =>
      rw [List.cons_append] at h
      injection h with h1 h2
      exact ⟨rs ++ [v], by rw [h2]; simp⟩
  | cons a ps ih =>
    intro q r t hnv h
    cases r with
    | nil =>
      rw [List.nil_append, List.cons_append] at h
      injection h with h1 h2
      exact absurd (h1 ▸ List.mem_cons_self a ps) hnv
    | cons b rs =>
      rw [List.cons_append, List.cons_append] at h
      injection h with h1 h2
      exact ih (fun hh => hnv (List.mem_cons_of_mem _ hh)) h2

theorem indexedSet_mono {s : Store} {st st' : TarjanState}
    (h : ∀ x i, st.indices x = some i → st'.indices x = some i) :
    indexedSet s st ⊆ indexedSet s st' := by
  intro x hx
  rw [indexedSet, Finset.mem_filter] at hx ⊢
  refine ⟨hx.1, ?_⟩
  rcases hs : st.indices x with _ | i
  · rw [hs] at hx; simp at hx
  · rw [h x i hs]; rfl

theorem indexed_card_step {s : Store} {st stI : TarjanState} {v : Nat}
    (hv : v ∈ storeIds s) (hvn : st.indices v = none)
    (hsup : ∀ x i, st.indices x = some i → stI.indices x = some i)
    (hvI : (stI.indices v).isSome) :
    (storeIds s \ indexedSet s stI).card + 1 ≤
      (storeIds s \ indexedSet s st).card := by
  have hmem : v ∈ storeIds s \ indexedSet s st := by
    rw [Finset.mem_sdiff, indexedSet, Finset.mem_filter]
    exact ⟨hv, fun h => by rw [hvn] at h; exact absurd h.2 (by simp)⟩
  have hsub : storeIds s \ indexedSet s stI ⊆
      (storeIds s \ indexedSet s st).erase v := by
    intro x hx
    rw [Finset.mem_sdiff] at hx
    rw [Finset.mem_erase, Finset.mem_sdiff]
    refine ⟨?_, hx.1, fun hxi => hx.2 ((indexedSet_mono hsup) hxi)⟩
    intro hxv
    subst hxv
    exact hx.2 (by rw [indexedSet, Finset.mem_filter]; exact ⟨hv, hvI⟩)
  have hle := Finset.card_le_card hsub
  rw [Finset.card_erase_of_mem hmem] at hle
  have hpos : 0 < (storeIds s \ indexedSet s st).card :=
    Finset.card_pos.mpr ⟨v, hmem⟩
  omega

theorem tarjanFinish_spec {v : Nat} {st1 : TarjanState}
    (hlv : (st1.lowlinks v).isSome) (hiv : (st1.indices v).isSome)
    (hstk : v ∈ st1.stack) :
    ∃ st2, tarjanFinish v st1 = some st2 ∧
      st2.indices = st1.indices ∧ st2.lowlinks = st1.lowlinks ∧
      st2.counter = st1.counter ∧
      ((∃ p, v ∉ p ∧ st1.stack = p ++ v :: st2.stack) ∨ st2.stack = st1.stack) ∧
      (∃ extra, st2.cycles = st1.cycles ++ extra ∧ ∀ c ∈ extra, 2 ≤ c.length) := by
  rcases hl : st1.lowlinks v with _ | vl
  · rw [hl] at hlv; cases hlv
  rcases hi : st1.indices v with _ | vi
  · rw [hi] at hiv; cases hiv
  by_cases hvlvi : vl = vi
  · obtain ⟨scc, stack', onSt', p, hpop, hsplit, hnv⟩ :=
      @popScc_of_mem v st1.stack st1.on_stack [] hstk
    refine ⟨{ st1 with
        stack := stack'
        on_stack := onSt'
        cycles := (if 1 < scc.length then st1.cycles ++ [scc.reverse] else st1.cycles) },
      ?_, rfl, rfl, rfl, ?_, ?_⟩
    · simp only [tarjanFinish, hl, hi, if_pos hvlvi, hpop]
    · exact Or.inl ⟨p, hnv, hsplit⟩
    · by_cases hlen : 1 < scc.length
      · refine ⟨[scc.reverse], by rw [if_pos hlen], ?_⟩
        intro c hc
        rw [List.mem_singleton] at hc
        subst hc
        rw [List.length_reverse]
        omega
      · exact ⟨[], by rw [if_neg hlen, List.append_nil], by simp⟩
  · refine ⟨st1, ?_, rfl, rfl, rfl, Or.inr rfl, ⟨[], by simp, by simp⟩⟩
    simp only [tarjanFinish, hl, hi, if_neg hvlvi]

theorem strongconnect_total {s : Store} :
    ∀ fuel : Nat, ∀ {v : Nat} {st : TarjanState},
      (storeIds s \ indexedSet s st).card < fuel →
      v ∈ storeIds s → st.indices v = none →
      (∀ x, (st.lowlinks x).isSome ↔ (st.indices x).isSome) →
      ∃ st', strongconnect s fuel v st = some st' ∧
        (∀ x i, st.indices x = some i → st'.indices x = some i) ∧
        st'.indices v = some st.counter ∧
        (∀ x, (st'.lowlinks x).isSome ↔ (st'.indices x).isSome) ∧
        (∃ pre, st'.stack = pre ++ st.stack) ∧
        (∃ extra, st'.cycles = st.cycles ++ extra ∧ ∀ c ∈ extra, 2 ≤ c.length) := by
  intro fuel
  induction fuel with
  | zero => intro v st h _ _ _; exact absurd h (Nat.not_lt_zero _)
  | succ fuel ih =>
    intro v st hfuel hv hvn hiff
    have hIidx : ∀ x i, st.indices x = some i → (tarjanVisit v st).indices x = some i := by
      intro x i hx
      by_cases hxv : x = v
      · rw [hxv] at hx; rw [hvn] at hx; cases hx
      · rw [tarjanVisit]
        simpa [hxv] using hx
    have hIv : (tarjanVisit v st).indices v = some st.counter := by
      rw [tarjanVisit]; simp
    have hIiff : ∀ x, ((tarjanVisit v st).lowlinks x).isSome ↔
        ((tarjanVisit v st).indices x).isSome := by
      intro x
      rw [tarjanVisit]
      by_cases hxv : x = v
      · simp [hxv]
      · simpa [hxv] using hiff x
    have hIstack : (tarjanVisit v st).stack = v :: st.stack := rfl
    have hIcyc : (tarjanVisit v st).cycles = st.cycles := rfl
    have hcard : (storeIds s \ indexedSet s (tarjanVisit v st)).card + 1 ≤
        (storeIds s \ indexedSet s st).card :=
      indexed_card_step hv hvn hIidx (by rw [hIv]; rfl)
    have hfold : ∀ (ds : List Nat), (∀ d ∈ ds, d ∈ storeIds s) →
        ∀ acc : TarjanState,
        (∀ x i, (tarjanVisit v st).indices x = some i → acc.indices x = some i) →
        (∀ x, (acc.lowlinks x).isSome ↔ (acc.indices x).isSome) →
        (∃ pre, acc.stack = pre ++ (tarjanVisit v st).stack) →
        (∃ extra, acc.cycles = st.cycles ++ extra ∧ ∀ c ∈ extra, 2 ≤ c.length) →
        ∃ acc', tarjanFold s fuel v ds acc = some acc' ∧
          (∀ x i, (tarjanVisit v st).indices x = some i → acc'.indices x = some i) ∧
          (∀ x, (acc'.lowlinks x).isSome ↔ (acc'.indices x).isSome) ∧
          (∃ pre, acc'.stack = pre ++ (tarjanVisit v st).stack) ∧
          (∃ extra, acc'.cycles = st.cycles ++ extra ∧ ∀ c ∈ extra, 2 ≤ c.length) := by
      intro ds
      induction ds with
      | nil =>
        intro _ acc h1 h2 h3 h4
        exact ⟨acc, by rw [tarjanFold], h1, h2, h3, h4⟩
      | cons dep ds ihds =>
        intro hds acc h1 h2 h3 h4
        have haccv : (acc.indices v).isSome := by
          rw [h1 v _ hIv]; rfl
        have hacclv : (acc.lowlinks v).isSome := (h2 v).mpr haccv
        by_cases hdep : acc.indices dep = none
        · have haccfuel : (storeIds s \ indexedSet s acc).card < fuel := by
            have hmono : (storeIds s \ indexedSet s acc).card ≤
                (storeIds s \ indexedSet s (tarjanVisit v st)).card :=
              Finset.card_le_card
                (Finset.sdiff_subset_sdiff (Finset.Subset.refl _) (indexedSet_mono h1))
            omega
          obtain ⟨st', hsc, hA, hB, hC, hD, hE⟩ :=
            ih haccfuel (hds dep (List.mem_cons_self _ _)) hdep h2
          have hldep : (st'.lowlinks dep).isSome := (hC dep).mpr (by rw [hB]; rfl)
          have hlv : (st'.lowlinks v).isSome := (hC v).mpr (by
            rw [hA v _ (h1 v _ hIv)]; rfl)
          rcases hdl : st'.lowlinks dep with _ | dl
          · rw [hdl] at hldep; cases hldep
          rcases hvl : st'.lowlinks v with _ | vl
          · rw [hvl] at hlv; cases hlv
          have hstep : tarjanFold s fuel v (dep :: ds) acc =
              tarjanFold s fuel v ds
                { st' with lowlinks := fun k =>
                    if k = v then some (min vl dl) else st'.lowlinks k } := by
            rw [tarjanFold]
            simp only [hdep, hsc, hdl, hvl, eq_self_iff_true, if_true]
          obtain ⟨acc', heq', hA', hB', hC', hD'⟩ :=
            ihds (fun d hd => hds d (List.mem_cons_of_mem _ hd))
              { st' with lowlinks := fun k =>
                  if k = v then some (min vl dl) else st'.lowlinks k }
              (fun x i hx => hA x i (h1 x i hx))
              (by
                intro x
                by_cases hxv : x = v
                · simp only [hxv, if_pos rfl, Option.isSome_some, true_iff]
                  rw [hA v _ (h1 v _ hIv)]
                  rfl
                · simpa [hxv] using hC x)
              (by
                obtain ⟨pre, hpre⟩ := h3
                obtain ⟨pre2, hpre2⟩ := hD
                exact ⟨pre2 ++ pre, by simp only [hpre2, hpre, List.append_assoc]⟩)
              (by
                obtain ⟨e1, he1, hl1⟩ := h4
                obtain ⟨e2, he2, hl2⟩ := hE
                refine ⟨e1 ++ e2, by simp only [he2, he1, List.append_assoc], ?_⟩
                intro c hc
                rcases List.mem_append.mp hc with h | h
                · exact hl1 c h
                · exact hl2 c h)
          exact ⟨acc', by rw [hstep]; exact heq', hA', hB', hC', hD'⟩
        · rcases hdi : acc.indices dep with _ | di
          · exact absurd hdi hdep
          rcases hal : acc.lowlinks v with _ | vl
          · rw [hal] at hacclv; cases hacclv
          by_cases hon : dep ∈ acc.on_stack
          · have hstep : tarjanFold s fuel v (dep :: ds) acc =
                tarjanFold s fuel v ds
                  { acc with lowlinks := fun k =>
                      if k = v then some (min vl di) else acc.lowlinks k } := by
              rw [tarjanFold]
              simp only [hdep, hdi, hal, hon, if_true, if_false, reduceCtorEq,
                eq_self_iff_true]
            obtain ⟨acc', heq', hA', hB', hC', hD'⟩ :=
              ihds (fun d hd => hds d (List.mem_cons_of_mem _ hd))
                { acc with lowlinks := fun k =>
                    if k = v then some (min vl di) else acc.lowlinks k }
                h1
                (by
                  intro x
                  by_cases hxv : x = v
                  · simp only [hxv, if_pos rfl, Option.isSome_some, true_iff]
                    rw [h1 v _ hIv]
                    rfl
                  · simpa [hxv] using h2 x)
                h3 h4
            exact ⟨acc', by rw [hstep]; exact heq', hA', hB', hC', hD'⟩
          · have hstep : tarjanFold s fuel v (dep :: ds) acc =
                tarjanFold s fuel v ds acc := by
              rw [tarjanFold]
              simp only [hdep, hdi, hon, if_false, reduceCtorEq, eq_self_iff_true,
                if_true]
            obtain ⟨acc', heq', hA', hB', hC', hD'⟩ :=
              ihds (fun d hd => hds d (List.mem_cons_of_mem _ hd)) acc h1 h2 h3 h4
            exact ⟨acc', by rw [hstep]; exact heq', hA', hB', hC', hD'⟩
    have hdsmem : ∀ d ∈ (match load_issue s v with
        | some m => m.depends_on
        | none => []), d ∈ storeIds s := by
      rcases hload : load_issue s v with _ | m
      · simp
      · intro d hd
        exact mem_storeIds_of_dep (load_issue_mem hload) hd
    obtain ⟨st1, hst1, h1, h2, h3, h4⟩ :=
      hfold _ hdsmem (tarjanVisit v st) (fun x i hx => hx) hIiff ⟨[], rfl⟩
        ⟨[], by rw [hIcyc, List.append_nil], by simp⟩
    have hst1v : st1.indices v = some st.counter := h1 v _ hIv
    have hst1lv : (st1.lowlinks v).isSome := (h2 v).mpr (by rw [hst1v]; rfl)
    have hst1stk : v ∈ st1.stack := by
      obtain ⟨pre, hpre⟩ := h3
      rw [hpre, hIstack]
      exact List.mem_append.mpr (Or.inr (List.mem_cons_self _ _))
    obtain ⟨st2, hfin, hfidx, hflow, hfctr, hfstk, hfcyc⟩ :=
      tarjanFinish_spec hst1lv (by rw [hst1v]; rfl) hst1stk
    refine ⟨st2, ?_, ?_, ?_, ?_, ?_, ?_⟩
    · rw [strongconnect]
      simp only [hst1]
      exact hfin
    · intro x i hx
      rw [hfidx]
      exact h1 x i (hIidx x i hx)
    · rw [hfidx]
      exact hst1v
    · intro x
      rw [hfidx, hflow]
      exact h2 x
    · obtain ⟨pre, hpre⟩ := h3
      rw [hIstack] at hpre
      rcases hfstk with ⟨p, hnv, hsplit⟩ | heq
      · rw [hpre] at hsplit
        obtain ⟨u, hu⟩ := stack_suffix_of_split hnv hsplit.symm
        exact ⟨u, hu⟩
      · rw [heq, hpre]
        exact ⟨pre ++ [v], by simp⟩
    · obtain ⟨e1, he1, hl1⟩ := h4
      obtain ⟨e2, he2, hl2⟩ := hfcyc
      refine ⟨e1 ++ e2, by rw [he2, he1, List.append_assoc], ?_⟩
      intro c hc
      rcases List.mem_append.mp hc with h | h
      · exact hl1 c h
      · exact hl2 c h

theorem storeIds_card_le (s : Store) : (storeIds s).card ≤ s.length + totalDeps s := by
  unfold storeIds totalDeps
  calc ((s.map (fun p => p.1)).toFinset ∪
        ((s.map (fun p => p.2.depends_on)).flatten).toFinset).card
      ≤ ((s.map (fun p => p.1)).toFinset).card +
        (((s.map (fun p => p.2.depends_on)).flatten).toFinset).card :=
        Finset.card_union_le _ _
    _ ≤ (s.map (fun p => p.1)).length +
        ((s.map (fun p => p.2.depends_on)).flatten).length :=
        Nat.add_le_add (List.toFinset_card_le _) (List.toFinset_card_le _)
    _ = s.length + ((s.map (fun p => p.2.depends_on)).map List.length).sum := by
        rw [List.length_map, List.length_flatten]
    _ = s.length + (s.map (fun p => p.2.depends_on.length)).sum := by
        rw [List.map_map]
        rfl

theorem find_cycles_total (s : Store) :
    ∃ cs, find_cycles s = some cs ∧ ∀ c ∈ cs, 2 ≤ c.length := by
  have hfold : ∀ (ps : List (Nat × IssueMetadata)),
      (∀ q ∈ ps, q.1 ∈ storeIds s) →
      ∀ st : TarjanState,
      (∀ x, (st.lowlinks x).isSome ↔ (st.indices x).isSome) →
      (∀ c ∈ st.cycles, 2 ≤ c.length) →
      ∃ st', ps.foldlM (fun (st : TarjanState) p => if st.indices p.1 = none
          then strongconnect s (tarjanFuel s) p.1 st else some st) st = some st' ∧
        ∀ c ∈ st'.cycles, 2 ≤ c.length := by
    intro ps
    induction ps with
    | nil => intro _ st _ hc; exact ⟨st, rfl, hc⟩
    | cons p rest ihp =>
      intro hps st hiff hc
      by_cases hpi : st.indices p.1 = none
      · have hfuel : (storeIds s \ indexedSet s st).card < tarjanFuel s := by
          have h1 : (storeIds s \ indexedSet s st).card ≤ (storeIds s).card :=
            Finset.card_le_card (Finset.sdiff_subset)
          have h2 := storeIds_card_le s
          unfold tarjanFuel
          omega
        obtain ⟨st', hsc, -, -, hC, -, hE⟩ :=
          strongconnect_total (tarjanFuel s) hfuel
            (hps p (List.mem_cons_self _ _)) hpi hiff
        have hc' : ∀ c ∈ st'.cycles, 2 ≤ c.length := by
          obtain ⟨extra, he, hl⟩ := hE
          intro c hcm
          rw [he] at hcm
          rcases List.mem_append.mp hcm with h | h
          · exact hc c h
          · exact hl c h
        obtain ⟨st'', heq, hfin⟩ :=
          ihp (fun q hq => hps q (List.mem_cons_of_mem _ hq)) st' hC hc'
        refine ⟨st'', ?_, hfin⟩
        rw [List.foldlM_cons]
        simp only [hpi, eq_self_iff_true, if_true, hsc, Option.some_bind]
        exact heq
      · obtain ⟨st'', heq, hfin⟩ :=
          ihp (fun q hq => hps q (List.mem_cons_of_mem _ hq)) st hiff hc
        refine ⟨st'', ?_, hfin⟩
        rw [List.foldlM_cons]
        simp only [hpi, if_false, Option.some_bind, if_neg]
        exact heq
  obtain ⟨st', heq, hfin⟩ :=
    hfold s (fun q hq => mem_storeIds_of_key (n := q.1) (m := q.2) hq)
      tarjanInit (by intro x; rw [tarjanInit]) (by rw [tarjanInit]; simp)
  refine ⟨st'.cycles, ?_, hfin⟩
  rw [find_cycles, heq]
  rfl

/-- On an acyclic store, `strongconnect` is a no-op on stack, on-stack set
and cycle list: every node closes its own singleton component (its lowlink
never drops below its own index, because a back edge into the stack would
be a cycle), so no component of size over one is ever reported. -/
theorem strongconnect_acyclic {s : Store} (hacyc : Acyclic s) :
    ∀ fuel : Nat, ∀ {v : Nat} {st : TarjanState} {P : List Nat},
      (storeIds s \ indexedSet s st).card < fuel →
      v ∈ storeIds s →
      st.indices v = none →
      st.stack = P →
      (∀ x, x ∈ st.on_stack ↔ x ∈ P) →
      (∀ p ∈ P, Relation.TransGen (depEdge s) p v) →
      (∀ p ∈ P, (st.indices p).isSome) →
      (∀ x i, st.indices x = some i → i < st.counter) →
      (∀ x, (st.lowlinks x).isSome ↔ (st.indices x).isSome) →
      (∀ x, x ∉ P → ∀ i, st.indices x = some i → st.lowlinks x = some i) →
      ∃ st', strongconnect s fuel v st = some st' ∧
        st'.stack = P ∧
        (∀ x, x ∈ st'.on_stack ↔ x ∈ P) ∧
        st'.cycles = st.cycles ∧
        (∀ x i, st.indices x = some i → st'.indices x = some i) ∧
        st'.indices v = some st.counter ∧
        st.counter < st'.counter ∧
        (∀ x i, st'.indices x = some i → i < st'.counter) ∧
        (∀ x, (st'.lowlinks x).isSome ↔ (st'.indices x).isSome) ∧
        (∀ x, x ∉ P → ∀ i, st'.indices x = some i → st'.lowlinks x = some i) ∧
        (∀ x, (st.indices x).isSome → st'.lowlinks x = st.lowlinks x) := by
  intro fuel
  induction fuel with
  | zero => intro v st P h; exact absurd h (Nat.not_lt_zero _)
  | succ fuel ih =>
    intro v st P hfuel hv hvn hstk honst hreach hPidx hctr hiff hdone
    have hvP : v ∉ P := fun hvp => by
      have := hPidx v hvp
      rw [hvn] at this
      cases this
    have hIidx : ∀ x i, st.indices x = some i → (tarjanVisit v st).indices x = some i := by
      intro x i hx
      by_cases hxv : x = v
      · rw [hxv, hvn] at hx; cases hx
      · rw [tarjanVisit]; simpa [hxv] using hx
    have hIv : (tarjanVisit v st).indices v = some st.counter := by
      rw [tarjanVisit]; simp
    have hfold : ∀ (ds : List Nat), (∀ d ∈ ds, depEdge s v d) →
        ∀ acc : TarjanState,
        acc.stack = v :: P →
        (∀ x, x ∈ acc.on_stack ↔ x ∈ v :: P) →
        acc.cycles = st.cycles →
        (∀ x i, st.indices x = some i → acc.indices x = some i) →
        acc.indices v = some st.counter →
        acc.lowlinks v = some st.counter →
        (∀ x i, acc.indices x = some i → i < acc.counter) →
        st.counter < acc.counter →
        (∀ x, (acc.lowlinks x).isSome ↔ (acc.indices x).isSome) →
        (∀ x, x ∉ v :: P → ∀ i, acc.indices x = some i → acc.lowlinks x = some i) →
        (∀ x, (st.indices x).isSome → acc.lowlinks x = st.lowlinks x) →
        (∀ p ∈ v :: P, (acc.indices p).isSome) →
        ∃ acc', tarjanFold s fuel v ds acc = some acc' ∧
          acc'.stack = v :: P ∧
          (∀ x, x ∈ acc'.on_stack ↔ x ∈ v :: P) ∧
          acc'.cycles = st.cycles ∧
          (∀ x i, st.indices x = some i → acc'.indices x = some i) ∧
          acc'.indices v = some st.counter ∧
          acc'.lowlinks v = some st.counter ∧
          (∀ x i, acc'.indices x = some i → i < acc'.counter) ∧
          st.counter < acc'.counter ∧
          (∀ x, (acc'.lowlinks x).isSome ↔ (acc'.indices x).isSome) ∧
          (∀ x, x ∉ v :: P → ∀ i, acc'.indices x = some i → acc'.lowlinks x = some i) ∧
          (∀ x, (st.indices x).isSome → acc'.lowlinks x = st.lowlinks x) ∧
          (∀ p ∈ v :: P, (acc'.indices p).isSome) := by
      intro ds
      induction ds with
      | nil =>
        intro _ acc a1 a2 a3 a4 a5 a6 a7 a8 a9 a10 a11 a12
        exact ⟨acc, by rw [tarjanFold],
          a1, a2, a3, a4, a5, a6, a7, a8, a9, a10, a11, a12⟩
      | cons dep ds ihds =>
        intro hdeps acc a1 a2 a3 a4 a5 a6 a7 a8 a9 a10 a11 a12
        have hedge : depEdge s v dep := hdeps dep (List.mem_cons_self _ _)
        by_cases hdep : acc.indices dep = none
        · have haccfuel : (storeIds s \ indexedSet s acc).card < fuel := by
            have hstep := indexed_card_step hv hvn a4 (by rw [a5]; rfl)
            omega
          have hdepP : dep ∉ v :: P := fun hd => by
            have := a12 dep hd
            rw [hdep] at this
            cases this
          obtain ⟨st', hsc, b1, b2, b3, b4, b5, b6, b7, b8, b9, b10⟩ :=
            ih haccfuel (depEdge_target_mem hedge) hdep a1 a2
              (by
                intro p hp
                rcases List.mem_cons.mp hp with hpv | hpP
                · exact hpv ▸ Relation.TransGen.single hedge
                · exact (hreach p hpP).tail hedge)
              a12 a7 a9 a10
          have hvlacc : st'.lowlinks v = some st.counter := by
            rw [b10 v (by rw [a5]; rfl), a6]
          have hdl : st'.lowlinks dep = some acc.counter := b9 dep hdepP acc.counter b5
          have hstep : tarjanFold s fuel v (dep :: ds) acc =
              tarjanFold s fuel v ds
                { st' with lowlinks := fun k =>
                    if k = v then some (min st.counter acc.counter)
                    else st'.lowlinks k } := by
            rw [tarjanFold]
            simp only [hdep, hsc, hdl, hvlacc, eq_self_iff_true, if_true]
          rw [hstep]
          have hmin : min st.counter acc.counter = st.counter :=
            Nat.min_eq_left (Nat.le_of_lt a8)
          refine ihds (fun d hd => hdeps d (List.mem_cons_of_mem _ hd)) _
            b1 b2 (b3.trans a3)
            (fun x i hx => b4 x i (a4 x i hx))
            (by simpa using b4 v _ a5)
            (by simp only [eq_self_iff_true, if_true, hmin])
            b7
            (Nat.lt_trans a8 b6)
            ?_ ?_ ?_
            (fun p hp => by
              have := a12 p hp
              rcases hpi : acc.indices p with _ | i
              · rw [hpi] at this; cases this
              · rw [b4 p i hpi]; rfl)
          · intro x
            by_cases hxv : x = v
            · simp only [hxv, if_pos rfl, Option.isSome_some, true_iff]
              rw [b4 v _ a5]; rfl
            · simpa [hxv] using b8 x
          · intro x hx i hxi
            have hxv : ¬ x = v := fun hh => hx (hh ▸ List.mem_cons_self _ _)
            simp only [hxv, if_neg, if_false]
            exact b9 x hx i hxi
          · intro x hx
            have hxv : ¬ x = v := fun hh => by
              rw [hh, hvn] at hx; cases hx
            simp only [hxv, if_neg, if_false]
            have hxacc : (acc.indices x).isSome := by
              rcases hxi : st.indices x with _ | i
              · rw [hxi] at hx; cases hx
              · rw [a4 x i hxi]; rfl
            rw [b10 x hxacc]
            exact a11 x hx
        · by_cases hon : dep ∈ acc.on_stack
          · exfalso
            rcases List.mem_cons.mp ((a2 dep).mp hon) with hdv | hdP
            · exact hacyc v (Relation.TransGen.single (hdv ▸ hedge))
            · exact hacyc dep ((hreach dep hdP).tail hedge)
          · have hstep : tarjanFold s fuel v (dep :: ds) acc =
                tarjanFold s fuel v ds acc := by
              rw [tarjanFold]
              rcases hdi : acc.indices dep with _ | i
              · exact absurd hdi hdep
              · simp only [hdi, hon, if_false, reduceCtorEq, eq_self_iff_true,
                  if_true, if_neg]
            rw [hstep]
            exact ihds (fun d hd => hdeps d (List.mem_cons_of_mem _ hd)) acc
              a1 a2 a3 a4 a5 a6 a7 a8 a9 a10 a11 a12
    have hInit :
        ∀ hds : List Nat, (∀ d ∈ hds, depEdge s v d) →
        ∃ acc', tarjanFold s fuel v hds (tarjanVisit v st) = some acc' ∧
          acc'.stack = v :: P ∧
          (∀ x, x ∈ acc'.on_stack ↔ x ∈ v :: P) ∧
          acc'.cycles = st.cycles ∧
          (∀ x i, st.indices x = some i → acc'.indices x = some i) ∧
          acc'.indices v = some st.counter ∧
          acc'.lowlinks v = some st.counter ∧
          (∀ x i, acc'.indices x = some i → i < acc'.counter) ∧
          st.counter < acc'.counter ∧
          (∀ x, (acc'.lowlinks x).isSome ↔ (acc'.indices x).isSome) ∧
          (∀ x, x ∉ v :: P → ∀ i, acc'.indices x = some i → acc'.lowlinks x = some i) ∧
          (∀ x, (st.indices x).isSome → acc'.lowlinks x = st.lowlinks x) ∧
          (∀ p ∈ v :: P, (acc'.indices p).isSome) := by
      intro hds hhds
      refine hfold hds hhds (tarjanVisit v st)
        (by rw [tarjanVisit, hstk])
        (by
          intro x
          rw [tarjanVisit]
          simp only [Finset.mem_insert, List.mem_cons]
          exact or_congr Iff.rfl (honst x))
        rfl hIidx hIv
        (by rw [tarjanVisit]; simp)
        ?_ (Nat.lt_succ_self _) ?_ ?_ ?_ ?_
      · intro x i hx
        rw [tarjanVisit] at hx ⊢
        simp only at hx ⊢
        by_cases hxv : x = v
        · rw [if_pos hxv] at hx
          cases hx
          exact Nat.lt_succ_self _
        · rw [if_neg hxv] at hx
          exact Nat.lt_succ_of_lt (hctr x i hx)
      · intro x
        rw [tarjanVisit]
        by_cases hxv : x = v
        · simp [hxv]
        · simpa [hxv] using hiff x
      · intro x hx i hxi
        have hxv : ¬ x = v := fun hh => hx (hh ▸ List.mem_cons_self _ _)
        have hxP : x ∉ P := fun hh => hx (List.mem_cons_of_mem _ hh)
        rw [tarjanVisit] at hxi ⊢
        simp only [if_neg hxv] at hxi ⊢
        exact hdone x hxP i hxi
      · intro x hx
        have hxv : ¬ x = v := fun hh => by
          rw [hh, hvn] at hx; cases hx
        rw [tarjanVisit]
        simp only [if_neg hxv]
      · intro p hp
        rcases List.mem_cons.mp hp with hpv | hpP
        · rw [hpv, hIv]; rfl
        · have := hPidx p hpP
          rcases hpi : st.indices p with _ | i
          · rw [hpi] at this; cases this
          · rw [hIidx p i hpi]; rfl
    rcases hload : load_issue s v with _ | mv
    case none =>
      obtain ⟨st1, hst1, c1, c2, c3, c4, c5, c6, c7, c8, c9, c10, c11, c12⟩ :=
        hInit [] (by simp)
      refine ⟨{ st1 with stack := P, on_stack := st1.on_stack.erase v }, ?_, rfl, ?_,
        c3, c4, c5, c8, c7, c9, ?_, c11⟩
      · rw [strongconnect]
        simp only [hload, hst1, tarjanFinish, c6, c5, if_pos rfl, c1, popScc,
          if_pos rfl]
        simp
      · intro x
        simp only [Finset.mem_erase]
        rw [c2 x, List.mem_cons]
        constructor
        · rintro ⟨hxv, hx | hx⟩
          · exact absurd hx hxv
          · exact hx
        · intro hx
          exact ⟨fun hh => hvP (hh ▸ hx), Or.inr hx⟩
      · intro x hx i hxi
        by_cases hxv : x = v
        · subst hxv
          rw [c5] at hxi
          cases hxi
          exact c6
        · exact c10 x (by
            intro hh
            rcases List.mem_cons.mp hh with h | h
            · exact hxv h
            · exact hx h) i hxi
    case some =>
      obtain ⟨st1, hst1, c1, c2, c3, c4, c5, c6, c7, c8, c9, c10, c11, c12⟩ :=
        hInit mv.depends_on (fun d hd => ⟨mv, hload, hd⟩)
      refine ⟨{ st1 with stack := P, on_stack := st1.on_stack.erase v }, ?_, rfl, ?_,
        c3, c4, c5, c8, c7, c9, ?_, c11⟩
      · rw [strongconnect]
        simp only [hload, hst1, tarjanFinish, c6, c5, if_pos rfl, c1, popScc,
          if_pos rfl]
        simp
      · intro x
        simp only [Finset.mem_erase]
        rw [c2 x, List.mem_cons]
        constructor
        · rintro ⟨hxv, hx | hx⟩
          · exact absurd hx hxv
          · exact hx
        · intro hx
          exact ⟨fun hh => hvP (hh ▸ hx), Or.inr hx⟩
      · intro x hx i hxi
        by_cases hxv : x = v
        · subst hxv
          rw [c5] at hxi
          cases hxi
          exact c6
        · exact c10 x (by
            intro hh
            rcases List.mem_cons.mp hh with h | h
            · exact hxv h
            · exact hx h) i hxi

theorem find_cycles_acyclic {s : Store} (hacyc : Acyclic s) :
    find_cycles s = some [] := by
  have hfold : ∀ (ps : List (Nat × IssueMetadata)),
      (∀ q ∈ ps, q.1 ∈ storeIds s) →
      ∀ st : TarjanState,
      st.stack = [] →
      (∀ x, x ∉ st.on_stack) →
      st.cycles = [] →
      (∀ x i, st.indices x = some i → i < st.counter) →
      (∀ x, (st.lowlinks x).isSome ↔ (st.indices x).isSome) →
      (∀ x i, st.indices x = some i → st.lowlinks x = some i) →
      ∃ st', ps.foldlM (fun (st : TarjanState) p => if st.indices p.1 = none
          then strongconnect s (tarjanFuel s) p.1 st else some st) st = some st' ∧
        st'.cycles = [] := by
    intro ps
    induction ps with
    | nil => intro _ st _ _ hc _ _ _; exact ⟨st, rfl, hc⟩
    | cons p rest ihp =>
      intro hps st hstk honst hc hctr hiff hdone
      by_cases hpi : st.indices p.1 = none
      · have hfuel : (storeIds s \ indexedSet s st).card < tarjanFuel s := by
          have h1 : (storeIds s \ indexedSet s st).card ≤ (storeIds s).card :=
            Finset.card_le_card (Finset.sdiff_subset)
          have h2 := storeIds_card_le s
          unfold tarjanFuel
          omega
        obtain ⟨st', hsc, d1, d2, d3, -, -, -, d7, d8, d9, -⟩ :=
          strongconnect_acyclic hacyc (tarjanFuel s) (P := [])
            hfuel (hps p (List.mem_cons_self _ _)) hpi hstk
            (by
              intro x
              simp only [List.not_mem_nil, iff_false]
              exact honst x)
            (by simp) (by simp) hctr hiff
            (fun x _ i hx => hdone x i hx)
        obtain ⟨st'', heq, hfin⟩ :=
          ihp (fun q hq => hps q (List.mem_cons_of_mem _ hq)) st' d1
            (fun x => by
              have := d2 x
              simp only [List.not_mem_nil, iff_false] at this
              exact this)
            (d3.trans hc) d7 d8
            (fun x i hx => d9 x (by simp) i hx)
        refine ⟨st'', ?_, hfin⟩
        rw [List.foldlM_cons]
        simp only [hpi, eq_self_iff_true, if_true, hsc, Option.some_bind]
        exact heq
      · obtain ⟨st'', heq, hfin⟩ :=
          ihp (fun q hq => hps q (List.mem_cons_of_mem _ hq)) st hstk honst hc
            hctr hiff hdone
        refine ⟨st'', ?_, hfin⟩
        rw [List.foldlM_cons]
        simp only [hpi, if_false, Option.some_bind, if_neg]
        exact heq
  obtain ⟨st', heq, hfin⟩ :=
    hfold s (fun q hq => mem_storeIds_of_key (n := q.1) (m := q.2) hq)
      tarjanInit rfl (by intro x; rw [tarjanInit]; simp) rfl
      (by intro x i hx; rw [tarjanInit] at hx; cases hx)
      (by intro x; rw [tarjanInit])
      (by intro x i hx; rw [tarjanInit] at hx; cases hx)
  rw [find_cycles, heq]
  simp only [Option.map_some']
  rw [hfin]

-- ### Claim C6 — find_cycles: the triangle and acyclic graphs

/-- **C6.** `find_cycles` reports exactly one component, `[1,2,3]`, for the
three-cycle 1 → 2 → 3 → 1, and reports nothing on any acyclic store (its
only outputs are strongly connected components of size above one, and an
acyclic graph has none). -/
theorem C6_find_cycles_triangle_and_acyclic :
    find_cycles triangleStore = some [[1, 2, 3]] ∧
    ∀ s : Store, Acyclic s → find_cycles s = some [] := by
  constructor
  · simp [find_cycles, strongconnect, tarjanFold, tarjanVisit, tarjanFinish, popScc,
      load_issue, triangleStore, tarjanInit, tarjanFuel, totalDeps]
  · exact fun s h => find_cycles_acyclic h

/-- Witness for C6 on a concrete acyclic store (the chain 1 → 2 → 3). -/
theorem C6_find_cycles_witness : find_cycles chainStore = some [] := by
  refine C6_find_cycles_triangle_and_acyclic.2 chainStore ?_
  refine no_transGen_cycle_of_rank (fun x => 3 - x) ?_
  rintro x y ⟨m, hm, hy⟩
  have hmem := load_issue_mem hm
  simp only [chainStore, List.mem_cons, List.not_mem_nil, or_false] at hmem
  rcases hmem with h | h | h
  · injection h with h1 h2
    subst h1; subst h2
    simp only [List.mem_singleton] at hy
    subst hy
    decide
  · injection h with h1 h2
    subst h1; subst h2
    simp only [List.mem_singleton] at hy
    subst hy
    decide
  · injection h with h1 h2
    subst h1; subst h2
    simp at hy

-- ### Claim C7 — the three algorithms terminate with usable results

/-- **C7.** On every finite store — in particular on every store that
already contains a dependency cycle — the cycle detector, the critical-path
search and the layer scheduler all terminate with a well-formed result
rather than panicking or looping: `find_cycles` returns a list of
components each of size at least two, `critical_path_chain` returns a
duplicate-free chain, and `compute_graph_layers` returns layers whose
concatenation is a permutation of the working set. -/
theorem C7_cyclic_inputs_terminate (s : Store) :
    (∃ cs, find_cycles s = some cs ∧ ∀ c ∈ cs, 2 ≤ c.length) ∧
    (∃ ch, critical_path_chain s = some ch ∧ ch.Nodup) ∧
    (∀ ids : List Nat, ∃ ls, compute_graph_layers s ids = some ls ∧
      ls.flatten.Perm ids) :=
  ⟨find_cycles_total s, critical_path_chain_total s, fun ids =>
    layersF_join_perm (Nat.lt_succ_self _) (by simp)⟩
